import Mathlib

/-
Verification of the `id3` decision-tree package (Go).

Shallow embedding notes.
* Go `*Instance` pointers are modelled by a heap: a `Store` (list of
  `Instance` cells) indexed by `InstId`.  Mutation of an instance through a
  pointer becomes `List.set` on the store; `Clone` becomes allocation
  (appending fresh cells).  A dataset (`ClassifiedDataSet`) is a list of
  instance ids into the store.
* Go `map[string]Feature` / `map[Feature]*Decision` / `map[Target]int` are
  association lists.  Go's map iteration order is unspecified; we fix the
  first-insertion order as its linearization.  A Go map cannot hold a
  duplicate key, which for `Decision` children is expressed by the
  well-formedness predicate `wfD` where a proof needs it.
* Go `uint` is a 64-bit unsigned integer: a `Nat` together with explicit
  wrap-around `% 2^64` where the source may overflow (`*iterations -= 1`).
* Go `float64` values produced here are exact counts and one final division;
  they are modelled by `GoFloat`: an exact rational, or `nan` for `0.0/0.0`
  (the only float exception reachable in this code).  Float comparisons on
  `nan` are false, as in IEEE semantics.
* The recursive `limitedTrain` and the stack loop of `ReducedErrorPrune`
  are given an explicit fuel argument (they terminate, but fuel keeps every
  definition structurally recursive and hence executable); `.outOfFuel` is
  the artificial out-of-fuel result, and the theorems give explicit fuel
  bounds under which it cannot occur.
* The `Decision` tree is mutated in place by the pruner in Go.  Here the
  tree is a pure inductive value, the pruner's stack holds paths (lists of
  feature values) instead of node pointers, and in-place child replacement
  is functional update `replaceAt`.  This is exact because the Go stack only
  ever holds nodes that remain attached to the tree at a fixed path.
-/

/-- Feature values: Go `type Feature uint8`.  The code never does arithmetic
on feature values, they are only compared for equality, so `Nat` is used. -/
abbrev Feature := Nat

/-- Target values: Go `type Target bool`. -/
abbrev Target := Bool

/-- Go `type Instance struct { FeatureValues map[string]Feature; TargetValue Target }`. -/
structure Instance where
  featureValues : List (String × Feature)
  targetValue : Target
deriving DecidableEq, Repr

/-- Heap address of an `*Instance`. -/
abbrev InstId := Nat

/-- The instance heap: cell `i` is the object `*Instance` number `i` points to. -/
abbrev Store := List Instance

/-- Dereference an instance pointer.  A dangling id yields a default cell;
the theorems never depend on this case. -/
def fetch (σ : Store) (i : InstId) : Instance :=
  σ.getD i ⟨[], false⟩

/-- Go map lookup with comma-ok: `v, ok := m[key]`. -/
def lookupFV : List (String × Feature) → String → Option Feature
  | [], _ => none
  | (k, v) :: rest, key => if k = key then some v else lookupFV rest key

/-- Go map indexing without comma-ok: `m[key]` yields the zero value `0`
when the key is absent. -/
def lookupFVD (fv : List (String × Feature)) (key : String) : Feature :=
  (lookupFV fv key).getD 0

/-- Go `delete(m, key)`. -/
def eraseFV (fv : List (String × Feature)) (key : String) : List (String × Feature) :=
  fv.filter (fun p => p.1 != key)

/-- Go `for featureName := range m` over a `map[string]Feature` (keys, in
the fixed linearization order). -/
def featureKeys (fv : List (String × Feature)) : List String :=
  fv.map (fun p => p.1)

/-- Go `(i *Instance) Clone()`: a fresh instance value with a copied
feature map and the same target. -/
def Instance.clone (i : Instance) : Instance :=
  ⟨i.featureValues.map (fun p => p), i.targetValue⟩

/-- Decision-tree nodes, Go `type Decision struct`.  The Go struct is a
tagged record (`isOutput` selects which fields are meaningful); here the two
shapes are the two constructors.  `nextDecisions : map[Feature]*Decision`
is an association list in insertion order. -/
inductive Decision where
  | output (outputValue : Target)
  | node (featureName : String) (nextDecisions : List (Feature × Decision))

mutual
/-- Structural equality on trees (Go's `reflect.DeepEqual` on the tree
shape); used because `DecidableEq` cannot be derived for this nested
inductive type. -/
def beqD : Decision → Decision → Bool
  | .output a, .output b => a == b
  | .node f cs, .node g ds => f == g && beqDL cs ds
  | _, _ => false

def beqDL : List (Feature × Decision) → List (Feature × Decision) → Bool
  | [], [] => true
  | (j, d) :: rest, (k, e) :: rest2 => j == k && beqD d e && beqDL rest rest2
  | _, _ => false
end

mutual
/-- Induction principle for `Decision` (the auto-generated nested recursor
is awkward for the `induction` tactic, so we provide a mutual one). -/
theorem recD {P : Decision → Prop} {Q : List (Feature × Decision) → Prop}
    (hout : ∀ v, P (.output v)) (hnode : ∀ fn cs, Q cs → P (.node fn cs))
    (hnil : Q []) (hcons : ∀ k d rest, P d → Q rest → Q ((k, d) :: rest)) :
    ∀ d, P d
  | .output v => hout v
  | .node fn cs => hnode fn cs (recDL hout hnode hnil hcons cs)

theorem recDL {P : Decision → Prop} {Q : List (Feature × Decision) → Prop}
    (hout : ∀ v, P (.output v)) (hnode : ∀ fn cs, Q cs → P (.node fn cs))
    (hnil : Q []) (hcons : ∀ k d rest, P d → Q rest → Q ((k, d) :: rest)) :
    ∀ cs, Q cs
  | [] => hnil
  | (k, d) :: rest =>
      hcons k d rest (recD hout hnode hnil hcons d) (recDL hout hnode hnil hcons rest)
end

theorem beqD_iff : ∀ a b : Decision, beqD a b = true ↔ a = b := by
  have h := recD (P := fun a => ∀ b, beqD a b = true ↔ a = b)
    (Q := fun cs => ∀ ds, beqDL cs ds = true ↔ cs = ds)
    (fun v b => by cases b <;> simp [beqD])
    (fun fn cs ih b => by
      cases b with
      | output w => simp [beqD]
      | node gn ds => simp [beqD, ih ds])
    (fun ds => by cases ds <;> simp [beqDL])
    (fun k d rest ihd ihr ds => by
      cases ds with
      | nil => simp [beqDL]
      | cons e rest2 =>
        obtain ⟨j, c⟩ := e
        simp [beqDL, ihd c, ihr rest2, and_assoc])
  exact h

instance : DecidableEq Decision :=
  fun a b => decidable_of_iff (beqD a b = true) (beqD_iff a b)

mutual
/-- Number of nodes of a tree; each recursive `limitedTrain` call constructs
exactly one node, so node count accounts for the recursive calls. -/
def sizeD : Decision → Nat
  | .output _ => 1
  | .node _ cs => 1 + sizeDL cs

def sizeDL : List (Feature × Decision) → Nat
  | [] => 0
  | (_, d) :: rest => sizeD d + sizeDL rest
end

mutual
/-- Keys of the child map of every node are distinct — automatically true of
any tree represented by Go maps, made explicit on the association-list
representation. -/
def wfD : Decision → Bool
  | .output _ => true
  | .node _ cs => (cs.map (fun p => p.1)).Nodup && wfDL cs

def wfDL : List (Feature × Decision) → Bool
  | [] => true
  | (_, d) :: rest => wfD d && wfDL rest
end

/-- Go comma-ok lookup in `nextDecisions : map[Feature]*Decision`. -/
def lookupChild : List (Feature × Decision) → Feature → Option Decision
  | [], _ => none
  | (k, d) :: rest, key => if k = key then some d else lookupChild rest key

/-- List of target values of a dataset, in dataset order. -/
def targetsOf (σ : Store) (ids : List InstId) : List Target :=
  ids.map (fun i => (fetch σ i).targetValue)

/-- Loop body of Go `instancesIdentical` (the trained variant compares only
`TargetValue` of consecutive instances). -/
def consecutiveEqual : List Target → Bool
  | [] => true
  | [_] => true
  | a :: b :: rest => a == b && consecutiveEqual (b :: rest)

/-- Go `instancesIdentical(insts)`: all instances share one target value. -/
def instancesIdentical (σ : Store) (ids : List InstId) : Bool :=
  consecutiveEqual (targetsOf σ ids)

/-- Go `map[Target]int` lookup. -/
def lookupCount : List (Target × Nat) → Target → Option Nat
  | [], _ => none
  | (t, c) :: rest, key => if t = key then some c else lookupCount rest key

/-- Go `m[key] = value` on a `map[Target]int` (insertion order kept). -/
def setCount : List (Target × Nat) → Target → Nat → List (Target × Nat)
  | [], key, value => [(key, value)]
  | (t, c) :: rest, key, value =>
      if t = key then (t, value) :: rest else (t, c) :: setCount rest key value

/-- Loop of Go `mostPopularTarget`: a running map of counts and the first
target value to reach the strictly highest count. -/
def mptLoop : List Target → List (Target × Nat) → Nat → Target → Target
  | [], _, _, highestTarget => highestTarget
  | t :: rest, targetCounts, highestCount, highestTarget =>
      let count := (lookupCount targetCounts t).getD 0 + 1
      let targetCounts2 := setCount targetCounts t count
      if highestCount < count then mptLoop rest targetCounts2 count t
      else mptLoop rest targetCounts2 highestCount highestTarget

/-- Go `mostPopularTarget(insts)`: majority vote over target values, first
value to reach the strictly highest count wins; `var highestTarget Target`
starts at the zero value `false`. -/
def mostPopularTarget (σ : Store) (ids : List InstId) : Target :=
  mptLoop (targetsOf σ ids) [] 0 false

/-- Add one instance to its bucket (Go append to `m[v]`, with a new bucket
for a first-seen feature value). -/
def addToBucket : List (Feature × List InstId) → Feature → InstId → List (Feature × List InstId)
  | [], v, i => [(v, [i])]
  | (w, l) :: rest, v, i =>
      if w = v then (w, l ++ [i]) :: rest else (w, l) :: addToBucket rest v i

/-- Go "sort instances into buckets of feature value" loop (used by the
trainer and the pruner); `inst.FeatureValues[featureName]` has Go
zero-value semantics on a missing key. -/
def bucketize (σ : Store) (ids : List InstId) (featureName : String) : List (Feature × List InstId) :=
  ids.foldl (fun bs i => addToBucket bs (lookupFVD (fetch σ i).featureValues featureName) i) []

/-- Comma-ok lookup in the bucket map. -/
def lookupBucket : List (Feature × List InstId) → Feature → Option (List InstId)
  | [], _ => none
  | (k, l) :: rest, key => if k = key then some l else lookupBucket rest key

/-- Errors returned by the package (Go `errors.New(...)` values, keyed by
the message; the constructor arguments carry what the message interpolates).
`outOfFuel` is the fuel artifact of the embedding, not a program error. -/
inductive Id3Error where
  /-- Go "no instances provided". -/
  | emptyDataset
  /-- Go "no instances available to extend tree for feature … with value …
  this shouldn't be possible". -/
  | noInstancesForFeature (featureName : String) (value : Feature)
  /-- Go "no decision node corresponding to instance value of … for …". -/
  | unknownFeatureValue (value : Feature) (featureName : String)
  /-- Go "no decision node for feature …". -/
  | missingFeature (featureName : String)
  /-- Artificial fuel exhaustion of the embedding. -/
  | outOfFuel
deriving DecidableEq, Repr

example : beqD (.node "a" [(0, .output true)]) (.node "a" [(0, .output true)]) = true := by decide

example : bucketize [⟨[("a", 0)], true⟩, ⟨[("a", 1)], false⟩, ⟨[("a", 0)], true⟩] [0, 1, 2] "a"
    = [(0, [0, 2]), (1, [1])] := by decide

example : mostPopularTarget [⟨[], true⟩, ⟨[], false⟩, ⟨[], true⟩] [0, 1, 2] = true := by decide

example : instancesIdentical [⟨[], true⟩, ⟨[], false⟩] [0, 1] = false := by decide

/-- Decidable equality for `Except` results (not provided by the core
library). -/
instance {ε α : Type} [DecidableEq ε] [DecidableEq α] : DecidableEq (Except ε α)
  | .error e, .error f => if h : e = f then .isTrue (by rw [h]) else .isFalse (by simp [h])
  | .error _, .ok _ => .isFalse (by simp)
  | .ok _, .error _ => .isFalse (by simp)
  | .ok a, .ok b => if h : a = b then .isTrue (by rw [h]) else .isFalse (by simp [h])

/-- 2^64: the modulus of Go `uint` on a 64-bit platform. -/
def UWORD : Nat := 2 ^ 64

/-- Go `*iterations -= 1` on a `uint`: unsigned decrement, wrapping at 0. -/
def udecr (it : Nat) : Nat := (it + (UWORD - 1)) % UWORD

/-- Go `type BestFeatureFunc func(ds ClassifiedDataSet) string`. -/
abbrev BestFeatureFunc := Store → List InstId → String

/-- The "Clone dataset so features can be removed" block of `limitedTrain`:
every instance of the dataset is deep-cloned and the chosen feature's key
is deleted from the clone's feature map.  On the heap this only allocates
fresh cells (the clones); the cells the caller's ids point to are untouched.
The clones are referenced by the rebound local `ds` only — the recursive
calls receive the buckets, which hold the original ids. -/
def cloneStripped (σ : Store) (ids : List InstId) (featureName : String) : Store :=
  σ ++ ids.map (fun i => { (fetch σ i).clone with
    featureValues := eraseFV ((fetch σ i).clone).featureValues featureName })

/-- The "Create subdecisions" loop of `limitedTrain`: for each bucket,
decrement the shared iteration counter, recurse (`tr` is the recursive
call), and on any child error replace it by the "no instances available to
extend tree" error.  The store and the shared counter thread left to right
through the children. -/
def trainBuckets (tr : Store → List InstId → Nat → Except Id3Error (Store × Nat × Decision))
    (featureName : String) :
    List (Feature × List InstId) → Store → Nat → Except Id3Error (Store × Nat × List (Feature × Decision))
  | [], σ, it => .ok (σ, it, [])
  | (k, v) :: rest, σ, it =>
      match tr σ v (udecr it) with
      | .error _ => .error (.noInstancesForFeature featureName k)
      | .ok (σ2, it2, child) =>
          match trainBuckets tr featureName rest σ2 it2 with
          | .error e => .error e
          | .ok (σ3, it3, children) => .ok (σ3, it3, (k, child) :: children)

/-- Go `limitedTrain(ds, bf, iterations *uint)`: the ID3 recursion with a
globally shared iteration budget.  `fuel` is the embedding's recursion
fuel (see the header); the branches in order: empty dataset, selector
returned the empty sentinel, budget exhausted, all targets identical,
otherwise split on the selected feature. -/
def limitedTrain (bf : BestFeatureFunc) : Nat → Store → List InstId → Nat → Except Id3Error (Store × Nat × Decision)
  | 0, _, _, _ => .error .outOfFuel
  | fuel + 1, σ, ids, it =>
      if ids.isEmpty then .error .emptyDataset
      else
        let featureName := bf σ ids
        if featureName = "" then .ok (σ, it, .output (mostPopularTarget σ ids))
        else if it = 0 then .ok (σ, it, .output (mostPopularTarget σ ids))
        else if instancesIdentical σ ids then .ok (σ, it, .output (fetch σ (ids.headD 0)).targetValue)
        else
          match trainBuckets (limitedTrain bf fuel) featureName (bucketize σ ids featureName)
              (cloneStripped σ ids featureName) it with
          | .error e => .error e
          | .ok (σ2, it2, children) => .ok (σ2, it2, .node featureName children)

/-- Go `LimitedTrain(ds, bf, iterations)`: passes the address of its
`iterations` argument to `limitedTrain`. -/
def LimitedTrain (bf : BestFeatureFunc) (fuel : Nat) (σ : Store) (ids : List InstId)
    (iterations : Nat) : Except Id3Error (Store × Nat × Decision) :=
  limitedTrain bf fuel σ ids iterations

/-- Go `Train(ds, bf)`: infinitely bounded training, budget `^uint(0)`. -/
def Train (bf : BestFeatureFunc) (fuel : Nat) (σ : Store) (ids : List InstId) :
    Except Id3Error (Store × Nat × Decision) :=
  limitedTrain bf fuel σ ids (UWORD - 1)

/-- Children loop of the historical `BoundedTrain` variant: every child is
trained with the same, value-passed budget `childIt` (not a shared
counter); only the store threads through. -/
def boundedTrainBuckets (tr : Store → List InstId → Except Id3Error (Store × Decision))
    (featureName : String) :
    List (Feature × List InstId) → Store → Except Id3Error (Store × List (Feature × Decision))
  | [], σ => .ok (σ, [])
  | (k, v) :: rest, σ =>
      match tr σ v with
      | .error _ => .error (.noInstancesForFeature featureName k)
      | .ok (σ2, child) =>
          match boundedTrainBuckets tr featureName rest σ2 with
          | .error e => .error e
          | .ok (σ3, children) => .ok (σ3, (k, child) :: children)

/-- The clone loop of `BoundedTrain`: clones every instance (fresh heap
cells) but — unlike `limitedTrain` — deletes nothing from them. -/
def cloneAll (σ : Store) (ids : List InstId) : Store :=
  σ ++ ids.map (fun i => (fetch σ i).clone)

/-- Go `BoundedTrain(ds, bf, iterations)` (the variant in which the budget
is passed by value, `iterations - 1` to every child). -/
def BoundedTrain (bf : BestFeatureFunc) : Nat → Store → List InstId → Nat → Except Id3Error (Store × Decision)
  | 0, _, _, _ => .error .outOfFuel
  | fuel + 1, σ, ids, iterations =>
      if ids.isEmpty then .error .emptyDataset
      else
        let featureName := bf σ ids
        if featureName = "" then .ok (σ, .output (mostPopularTarget σ ids))
        else if iterations = 0 then .ok (σ, .output (mostPopularTarget σ ids))
        else if instancesIdentical σ ids then .ok (σ, .output (fetch σ (ids.headD 0)).targetValue)
        else
          match boundedTrainBuckets (fun σy v => BoundedTrain bf fuel σy v (iterations - 1))
              featureName (bucketize σ ids featureName) (cloneAll σ ids) with
          | .error e => .error e
          | .ok (σ2, children) => .ok (σ2, .node featureName children)

mutual
/-- Go `(dtree *Decision) Classify(inst *Instance)`: walk the tree; at an
output node overwrite the instance's target in place; at an inner node look
up the instance's value for the node's feature (comma-ok), then the child
for that value (comma-ok), and recurse.  Returns the updated heap and the
error, if any. -/
def Classify : Decision → Store → InstId → Store × Option Id3Error
  | .output v, σ, i => (σ.set i { fetch σ i with targetValue := v }, none)
  | .node featureName cs, σ, i =>
      match lookupFV (fetch σ i).featureValues featureName with
      | some thisValue => classifyStep cs featureName thisValue σ i
      | none => (σ, some (.missingFeature featureName))

/-- The child lookup of `Classify` fused with the recursive call (first
entry with the matching feature value; error if none). -/
def classifyStep : List (Feature × Decision) → String → Feature → Store → InstId → Store × Option Id3Error
  | [], featureName, thisValue, σ, _ => (σ, some (.unknownFeatureValue thisValue featureName))
  | (k, d) :: rest, featureName, thisValue, σ, i =>
      if k = thisValue then Classify d σ i else classifyStep rest featureName thisValue σ i
end

/-- Exact model of the `float64` values this package produces.  Every such
value is `wrongCount / datasetSize`, kept as the unreduced fraction
`num / den` of the two exactly-representable counts (a plain count `c` is
`c / 1`).  `den = 0` encodes the one reachable float exception: `0.0/0.0`
= NaN on the empty dataset (a positive numerator over a zero denominator
cannot occur — no instances means no misclassifications).  Comparisons go
by cross-multiplication, so they agree exactly with the real-number
comparisons of the represented values, and are false on NaN as in IEEE. -/
structure GoFloat where
  num : Nat
  den : Nat
deriving DecidableEq, Repr

/-- NaN test (`den = 0`, i.e. the value arose as `0.0/0.0`). -/
def GoFloat.isNan (x : GoFloat) : Bool := x.den == 0

/-- Go `>` on float64: value comparison, false whenever a side is NaN. -/
def GoFloat.gt (x y : GoFloat) : Bool :=
  !x.isNan && !y.isNan && decide (y.num * x.den < x.num * y.den)

/-- Go `<=` on float64: value comparison, false whenever a side is NaN. -/
def GoFloat.le (x y : GoFloat) : Bool :=
  !x.isNan && !y.isNan && decide (x.num * y.den ≤ y.num * x.den)

/-- Go `0 <= x && x <= 1` on float64 (membership in [0,1]); false for NaN,
as every IEEE comparison with NaN is. -/
def GoFloat.mem01 (x : GoFloat) : Bool :=
  GoFloat.le ⟨0, 1⟩ x && GoFloat.le x ⟨1, 1⟩

/-- The instance loop of `CalculateError`: save the target, classify
(mutating the heap), count a wrong classification, restore the saved
target; abort on the first classification error. -/
def calcLoop (dtree : Decision) : List InstId → Store → Nat → Store × Nat × Option Id3Error
  | [], σ, wrong => (σ, wrong, none)
  | i :: rest, σ, wrong =>
      let correctTargetValue := (fetch σ i).targetValue
      match Classify dtree σ i with
      | (σ1, some e) => (σ1, wrong, some e)
      | (σ1, none) =>
          let wrong2 := if correctTargetValue != (fetch σ1 i).targetValue then wrong + 1 else wrong
          let σ2 := σ1.set i { fetch σ1 i with targetValue := correctTargetValue }
          calcLoop dtree rest σ2 wrong2

/-- Go `(dtree *Decision) CalculateError(ds)`: misclassification rate of
the tree on the dataset.  Returns the heap, the rate and the error; like
the source it returns the sentinel rate `1.0` together with an error, and
`wrong / float64(len(ds.Instances))` on success. -/
def CalculateError (dtree : Decision) (σ : Store) (ids : List InstId) : Store × GoFloat × Option Id3Error :=
  match calcLoop dtree ids σ 0 with
  | (σ1, _, some e) => (σ1, ⟨1, 1⟩, some e)
  | (σ1, wrong, none) => (σ1, ⟨wrong, ids.length⟩, none)

/-- Path from the root: the sequence of feature values (child-map keys)
chosen at each inner node.  Stands for the Go node pointers held by the
pruner's stack (a pointer is recovered as the node the path reaches). -/
abbrev TreePath := List Feature

/-- Replace, in the children map, the child under key `k` by `f` of it
(Go `curTree.nextDecisions[featureValue] = …` on an existing key). -/
def mapChild (k : Feature) (f : Decision → Decision) (cs : List (Feature × Decision)) :
    List (Feature × Decision) :=
  cs.map (fun kc => if kc.1 = k then (kc.1, f kc.2) else kc)

/-- Functional update of the subtree a path reaches (how this embedding
realizes the Go pointer assignment into the live tree).  An invalid path
leaves the tree unchanged; the pruner only ever uses valid paths. -/
def replaceAt : Decision → TreePath → Decision → Decision
  | _, [], repl => repl
  | .output v, _ :: _, _ => .output v
  | .node fn cs, k :: p, repl => .node fn (mapChild k (fun c => replaceAt c p repl) cs)

/-- The subtree a path reaches (`none` for an invalid path). -/
def getPath : Decision → TreePath → Option Decision
  | d, [] => some d
  | .output _, _ :: _ => none
  | .node _ cs, k :: p =>
      match lookupChild cs k with
      | some c => getPath c p
      | none => none

/-- The inner `for featureValue, subTree := range curTree.nextDecisions`
loop of `ReducedErrorPrune`, for one popped node at `path`.  For each child:
evaluate the whole tree (`prevError`; its error aborts the pass), replace
the child by a majority leaf of its applicable validation subset, evaluate
again — the source drops this second call's error and only compares the
returned sentinel rate — and either keep the leaf or revert and push the
original child for later pruning.  Returns the final heap, the updated
root, the pushes in iteration order, and the aborting error, if any. -/
def pruneChildren (validate : List InstId) (path : TreePath) (bmap : List (Feature × List InstId)) :
    List (Feature × Decision) → Store → Decision →
    Store × Decision × List (TreePath × List InstId) × Option Id3Error
  | [], σ, root => (σ, root, [], none)
  | (featureValue, subTree) :: rest, σ, root =>
      let applicableInstances := (lookupBucket bmap featureValue).getD []
      match CalculateError root σ validate with
      | (σ1, _, some e) => (σ1, root, [], some e)
      | (σ1, prevError, none) =>
          let root1 := replaceAt root (path ++ [featureValue])
            (.output (mostPopularTarget σ1 applicableInstances))
          match CalculateError root1 σ1 validate with
          | (σ2, postError, _) =>
            if GoFloat.gt postError prevError then
              let root2 := replaceAt root1 (path ++ [featureValue]) subTree
              match pruneChildren validate path bmap rest σ2 root2 with
              | (σ3, rootF, pushes, err) =>
                  (σ3, rootF, (path ++ [featureValue], applicableInstances) :: pushes, err)
            else pruneChildren validate path bmap rest σ2 root1

/-- The specification's version of the child loop ("every error is returned
to the caller; none are silently swallowed"): identical to `pruneChildren`
except that the second whole-tree evaluation's error is also checked and
propagated instead of being dropped. -/
def pruneChildrenSpec (validate : List InstId) (path : TreePath) (bmap : List (Feature × List InstId)) :
    List (Feature × Decision) → Store → Decision →
    Store × Decision × List (TreePath × List InstId) × Option Id3Error
  | [], σ, root => (σ, root, [], none)
  | (featureValue, subTree) :: rest, σ, root =>
      let applicableInstances := (lookupBucket bmap featureValue).getD []
      match CalculateError root σ validate with
      | (σ1, _, some e) => (σ1, root, [], some e)
      | (σ1, prevError, none) =>
          let root1 := replaceAt root (path ++ [featureValue])
            (.output (mostPopularTarget σ1 applicableInstances))
          match CalculateError root1 σ1 validate with
          | (σ2, _, some e) => (σ2, root1, [], some e)
          | (σ2, postError, none) =>
            if GoFloat.gt postError prevError then
              let root2 := replaceAt root1 (path ++ [featureValue]) subTree
              match pruneChildrenSpec validate path bmap rest σ2 root2 with
              | (σ3, rootF, pushes, err) =>
                  (σ3, rootF, (path ++ [featureValue], applicableInstances) :: pushes, err)
            else pruneChildrenSpec validate path bmap rest σ2 root1

/-- The work-stack loop of `ReducedErrorPrune`.  The head of `stack` is the
top.  A popped output node is skipped; for an inner node the applicable
validation instances are bucketed by the node's feature and the child loop
runs; its pushes go on top of the stack (reversed, because Go appends them
in iteration order to the slice whose end is the top).  An aborting error
from the child loop is returned as the result of the whole prune (the
partially pruned tree is dropped with it, as a Go caller only receives the
error).  `getPath … = none` cannot occur (stack paths stay valid); it is
mapped to a skip. -/
def pruneLoop (validate : List InstId) : Nat → List (TreePath × List InstId) → Store → Decision →
    Except Id3Error (Store × Decision)
  | 0, _, _, _ => .error .outOfFuel
  | fuel + 1, stack0, σ, root =>
      match stack0 with
      | [] => .ok (σ, root)
      | (path, curIds) :: stack =>
        match getPath root path with
        | none => pruneLoop validate fuel stack σ root
        | some (.output _) => pruneLoop validate fuel stack σ root
        | some (.node featureName cs) =>
            match pruneChildren validate path (bucketize σ curIds featureName) cs σ root with
            | (_, _, _, some e) => .error e
            | (σ1, root1, pushes, none) =>
                pruneLoop validate fuel (pushes.reverse ++ stack) σ1 root1

/-- Go `(thisTree *Decision) ReducedErrorPrune(validate)`: seed the stack
with the root and the full validation set and run the loop. -/
def ReducedErrorPrune (fuel : Nat) (root : Decision) (σ : Store) (validate : List InstId) :
    Except Id3Error (Store × Decision) :=
  pruneLoop validate fuel [([], validate)] σ root

/-- Stack loop driving `pruneChildrenSpec` (the only difference from
`pruneLoop`). -/
def pruneLoopSpec (validate : List InstId) : Nat → List (TreePath × List InstId) → Store → Decision →
    Except Id3Error (Store × Decision)
  | 0, _, _, _ => .error .outOfFuel
  | fuel + 1, stack0, σ, root =>
      match stack0 with
      | [] => .ok (σ, root)
      | (path, curIds) :: stack =>
        match getPath root path with
        | none => pruneLoopSpec validate fuel stack σ root
        | some (.output _) => pruneLoopSpec validate fuel stack σ root
        | some (.node featureName cs) =>
            match pruneChildrenSpec validate path (bucketize σ curIds featureName) cs σ root with
            | (_, _, _, some e) => .error e
            | (σ1, root1, pushes, none) =>
                pruneLoopSpec validate fuel (pushes.reverse ++ stack) σ1 root1

/-- The specification's reduced-error prune: every whole-tree evaluation
error — including the second, post-replacement one — is returned. -/
def ReducedErrorPruneSpec (fuel : Nat) (root : Decision) (σ : Store) (validate : List InstId) :
    Except Id3Error (Store × Decision) :=
  pruneLoopSpec validate fuel [([], validate)] σ root

/-- One summand `p_i * log2(p_i)` of Go `entropy` (float arithmetic
idealized as exact reals). -/
noncomputable def entropyTerm (count n : Nat) : ℝ :=
  ((count : ℝ) / n) * Real.logb 2 ((count : ℝ) / n)

/-- Go `entropy(insts)`: Shannon entropy in bits of the target-value
distribution.  The Go loop sums `p_i*log2(p_i)` over the entries of a
`map[Target]int` of counts — only target values actually present get an
entry, hence the zero-count guards. -/
noncomputable def entropy (targets : List Target) : ℝ :=
  let n := targets.length
  let cFalse := targets.count false
  let cTrue := targets.count true
  Neg.neg ((if cFalse ≠ 0 then entropyTerm cFalse n else 0) +
    (if cTrue ≠ 0 then entropyTerm cTrue n else 0))

/-- Go `infoGainOfFeature(ds, featureName)`: the dataset entropy minus the
weighted entropies of the per-feature-value partitions.  The source's
`featureValueCounts` map and its per-value instance filtering are exactly
the buckets of `bucketize` (same contents, same first-seen order). -/
noncomputable def infoGainOfFeature (σ : Store) (ids : List InstId) (featureName : String) : ℝ :=
  entropy (targetsOf σ ids) -
    ((bucketize σ ids featureName).map (fun b =>
      ((b.2.length : ℝ) / ids.length) * entropy (targetsOf σ b.2))).sum

/-- The candidate loop of `BestFeatureInformationGain`: running maximum
(strict improvement only) over the information gains of the candidates. -/
noncomputable def bfLoop (σ : Store) (ids : List InstId) : List String → ℝ → String → String
  | [], _, greatestFeature => greatestFeature
  | featureName :: rest, greatestInfoGain, greatestFeature =>
      if infoGainOfFeature σ ids featureName > greatestInfoGain then
        bfLoop σ ids rest (infoGainOfFeature σ ids featureName) featureName
      else bfLoop σ ids rest greatestInfoGain greatestFeature

/-- Go `BestFeatureInformationGain(ds)`: the candidates are the keys of the
first instance's feature map; the running maximum starts at `0.0` with the
empty-string sentinel, so a feature is chosen only if its gain is strictly
positive.  (Go indexes `ds.Instances[0]` unconditionally; the embedding
reads a default cell for an empty dataset, a case the theorems exclude as
the source would panic there.) -/
noncomputable def BestFeatureInformationGain (σ : Store) (ids : List InstId) : String :=
  bfLoop σ ids (featureKeys (fetch σ (ids.headD 0)).featureValues) 0 ""

/-
Helper lemmas about the heap.
-/

theorem fetch_of_store_extension {σ σ' : Store} (h : σ <+: σ') {i : InstId} (hi : i < σ.length) :
    fetch σ' i = fetch σ i := by
  obtain ⟨τ, rfl⟩ := h
  exact List.getD_append _ _ _ _ hi

theorem trainBuckets_extends_store
    (tr : Store → List InstId → Nat → Except Id3Error (Store × Nat × Decision))
    (htr : ∀ σ v it σ2 it2 c, tr σ v it = .ok (σ2, it2, c) → σ <+: σ2)
    (featureName : String) :
    ∀ (bs : List (Feature × List InstId)) (σ : Store) (it : Nat) σ3 it3 cs,
      trainBuckets tr featureName bs σ it = .ok (σ3, it3, cs) → σ <+: σ3 := by
  intro bs
  induction bs with
  | nil => intro σ it σ3 it3 cs h; simp [trainBuckets] at h; exact h.1 ▸ List.prefix_refl σ
  | cons kv rest ih =>
    obtain ⟨k, v⟩ := kv
    intro σ it σ3 it3 cs h
    rw [trainBuckets] at h
    split at h
    · simp at h
    with_reducible rename_i σ2 it2 child hc
    split at h
    · simp at h
    with_reducible rename_i σr itr csr hrest
    simp at h
    exact (htr σ v (udecr it) σ2 it2 child hc).trans (h.1 ▸ ih σ2 it2 σr itr csr hrest)

theorem limitedTrain_extends_store (bf : BestFeatureFunc) :
    ∀ (fuel : Nat) (σ : Store) (ids : List InstId) (it : Nat) σ' it' t,
      limitedTrain bf fuel σ ids it = .ok (σ', it', t) → σ <+: σ' := by
  intro fuel
  induction fuel with
  | zero => intro σ ids it σ' it' t h; simp [limitedTrain] at h
  | succ fuel ih =>
    intro σ ids it σ' it' t h
    simp only [limitedTrain] at h
    split at h
    · simp at h
    · split at h
      · simp at h; exact h.1 ▸ List.prefix_refl σ
      · split at h
        · simp at h; exact h.1 ▸ List.prefix_refl σ
        · split at h
          · simp at h; exact h.1 ▸ List.prefix_refl σ
          · cases hb : trainBuckets (limitedTrain bf fuel) (bf σ ids)
                (bucketize σ ids (bf σ ids)) (cloneStripped σ ids (bf σ ids)) it with
            | error e => rw [hb] at h; simp at h
            | ok r =>
              obtain ⟨σ2, it2, children⟩ := r
              rw [hb] at h
              simp at h
              have hpre : cloneStripped σ ids (bf σ ids) <+: σ2 :=
                trainBuckets_extends_store (limitedTrain bf fuel)
                  (fun σa v ita σb itb c hc => ih σa v ita σb itb c hc)
                  (bf σ ids) _ _ _ _ _ _ hb
              exact (List.prefix_append σ _).trans (h.1 ▸ hpre)

theorem boundedTrainBuckets_extends_store
    (tr : Store → List InstId → Except Id3Error (Store × Decision))
    (htr : ∀ σ v σ2 c, tr σ v = .ok (σ2, c) → σ <+: σ2)
    (featureName : String) :
    ∀ (bs : List (Feature × List InstId)) (σ : Store) σ3 cs,
      boundedTrainBuckets tr featureName bs σ = .ok (σ3, cs) → σ <+: σ3 := by
  intro bs
  induction bs with
  | nil => intro σ σ3 cs h; simp [boundedTrainBuckets] at h; exact h.1 ▸ List.prefix_refl σ
  | cons kv rest ih =>
    obtain ⟨k, v⟩ := kv
    intro σ σ3 cs h
    rw [boundedTrainBuckets] at h
    split at h
    · simp at h
    with_reducible rename_i σ2 child hc
    split at h
    · simp at h
    with_reducible rename_i σr csr hrest
    simp at h
    exact (htr σ v σ2 child hc).trans (h.1 ▸ ih σ2 σr csr hrest)

theorem BoundedTrain_extends_store (bf : BestFeatureFunc) :
    ∀ (fuel : Nat) (σ : Store) (ids : List InstId) (it : Nat) σ' t,
      BoundedTrain bf fuel σ ids it = .ok (σ', t) → σ <+: σ' := by
  intro fuel
  induction fuel with
  | zero => intro σ ids it σ' t h; simp [BoundedTrain] at h
  | succ fuel ih =>
    intro σ ids it σ' t h
    simp only [BoundedTrain] at h
    split at h
    · simp at h
    · split at h
      · simp at h; exact h.1 ▸ List.prefix_refl σ
      · split at h
        · simp at h; exact h.1 ▸ List.prefix_refl σ
        · split at h
          · simp at h; exact h.1 ▸ List.prefix_refl σ
          · cases hb : boundedTrainBuckets (fun σy v => BoundedTrain bf fuel σy v (it - 1))
                (bf σ ids) (bucketize σ ids (bf σ ids)) (cloneAll σ ids) with
            | error e => rw [hb] at h; simp at h
            | ok r =>
              obtain ⟨σ2, children⟩ := r
              rw [hb] at h
              simp at h
              have hpre : cloneAll σ ids <+: σ2 :=
                boundedTrainBuckets_extends_store _
                  (fun σa v σb c hc => ih σa v (it - 1) σb c hc) (bf σ ids) _ _ _ _ hb
              exact (List.prefix_append σ _).trans (h.1 ▸ hpre)

/-- C1: training — `Train`, `LimitedTrain` (both run `limitedTrain`) and
`BoundedTrain` — never mutates a caller-supplied instance: the heap after a
successful training run extends the heap before it, every pre-existing cell
(in particular every instance of the caller's dataset) keeping exactly the
feature keys, feature values and target it had before the call.  The only
instances training writes to are the fresh deep clones, which is where the
selected feature's key is deleted. -/
theorem train_never_mutates_caller :
    (∀ (bf : BestFeatureFunc) (fuel : Nat) (σ : Store) (ids : List InstId) (it : Nat) σ' it' t,
      limitedTrain bf fuel σ ids it = .ok (σ', it', t) →
      ∀ i < σ.length, fetch σ' i = fetch σ i) ∧
    (∀ (bf : BestFeatureFunc) (fuel : Nat) (σ : Store) (ids : List InstId) (it : Nat) σ' t,
      BoundedTrain bf fuel σ ids it = .ok (σ', t) →
      ∀ i < σ.length, fetch σ' i = fetch σ i) := by
  constructor
  · intro bf fuel σ ids it σ' it' t h i hi
    exact fetch_of_store_extension (limitedTrain_extends_store bf fuel σ ids it σ' it' t h) hi
  · intro bf fuel σ ids it σ' t h i hi
    exact fetch_of_store_extension (BoundedTrain_extends_store bf fuel σ ids it σ' t h) hi

/-- A selector used by concrete runs: the first feature key under which not
all instances agree, or the empty sentinel.  (Any function of the right
type is a legal `BestFeatureFunc`.) -/
def bfFirstSplit : BestFeatureFunc := fun σ ids =>
  ((featureKeys (fetch σ (ids.headD 0)).featureValues).filter (fun fn =>
    ids.any (fun i => lookupFVD (fetch σ i).featureValues fn ≠
      lookupFVD (fetch σ (ids.headD 0)).featureValues fn))).headD ""

/-- The candy dataset of the package's tests, as a heap. -/
def candyStore : Store :=
  [⟨[("salty", 0), ("sweet", 0)], false⟩,
   ⟨[("salty", 1), ("sweet", 0)], false⟩,
   ⟨[("salty", 1), ("sweet", 1)], true⟩,
   ⟨[("salty", 0), ("sweet", 1)], true⟩]

/-- The heap a concrete training run on the candy dataset ends with: the
four original cells followed by the training clones (feature key deleted). -/
def candyTrainedStore : Store :=
  [⟨[("salty", 0), ("sweet", 0)], false⟩,
   ⟨[("salty", 1), ("sweet", 0)], false⟩,
   ⟨[("salty", 1), ("sweet", 1)], true⟩,
   ⟨[("salty", 0), ("sweet", 1)], true⟩,
   ⟨[("sweet", 0)], false⟩,
   ⟨[("sweet", 0)], false⟩,
   ⟨[("sweet", 1)], true⟩,
   ⟨[("sweet", 1)], true⟩,
   ⟨[("salty", 0)], false⟩,
   ⟨[("salty", 0)], true⟩,
   ⟨[("salty", 1)], false⟩,
   ⟨[("salty", 1)], true⟩]

/-- The tree the same run produces. -/
def candyTrainedTree : Decision :=
  .node "salty"
    [(0, .node "sweet" [(0, .output false), (1, .output true)]),
     (1, .node "sweet" [(0, .output false), (1, .output true)])]

/-- Witness for C1: a concrete successful training run on the candy
dataset, after which cell 0 of the heap is exactly what it was. -/
theorem train_never_mutates_caller_witness :
    limitedTrain bfFirstSplit 20 candyStore [0, 1, 2, 3] (UWORD - 1)
      = .ok (candyTrainedStore, UWORD - 7, candyTrainedTree) ∧
    0 < candyStore.length ∧ fetch candyTrainedStore 0 = fetch candyStore 0 :=
  ⟨by decide, by decide,
    train_never_mutates_caller.1 bfFirstSplit 20 candyStore [0, 1, 2, 3] (UWORD - 1)
      candyTrainedStore (UWORD - 7) candyTrainedTree (by decide) 0 (by decide)⟩

/-
Heap lemmas for classification and evaluation.
-/

theorem set_fetch (σ : Store) (i : InstId) : σ.set i (fetch σ i) = σ := by
  induction σ generalizing i with
  | nil => rfl
  | cons a rest ih =>
    cases i with
    | zero => rfl
    | succ j => simpa [fetch, List.set] using ih j

theorem instance_eta (x : Instance) :
    ({ featureValues := x.featureValues, targetValue := x.targetValue } : Instance) = x := rfl

theorem classify_heap_effect : ∀ t : Decision, ∀ σ i,
    ((Classify t σ i).2 = none →
      ∃ b, (Classify t σ i).1 = σ.set i { fetch σ i with targetValue := b }) ∧
    ((Classify t σ i).2 ≠ none → (Classify t σ i).1 = σ) := by
  refine recD (Q := fun cs => ∀ fn v σ i,
    ((classifyStep cs fn v σ i).2 = none →
      ∃ b, (classifyStep cs fn v σ i).1 = σ.set i { fetch σ i with targetValue := b }) ∧
    ((classifyStep cs fn v σ i).2 ≠ none → (classifyStep cs fn v σ i).1 = σ)) ?_ ?_ ?_ ?_
  · intro b σ i
    refine ⟨fun _ => ⟨b, rfl⟩, fun hne => absurd rfl hne⟩
  · intro fn cs ih σ i
    simp only [Classify]
    cases h : lookupFV (fetch σ i).featureValues fn with
    | some v => exact ih fn v σ i
    | none => exact ⟨fun hc => by simp at hc, fun _ => rfl⟩
  · intro fn v σ i
    exact ⟨fun hc => by simp [classifyStep] at hc, fun _ => rfl⟩
  · intro k d rest ihd ihr fn v σ i
    simp only [classifyStep]
    by_cases hk : k = v
    · simp only [hk, if_pos rfl]
      exact ihd σ i
    · simp only [if_neg hk]
      exact ihr fn v σ i

theorem fetch_set_lt {σ : Store} {i : InstId} (h : i < σ.length) (x : Instance) :
    fetch (σ.set i x) i = x := by
  simp [fetch, List.getElem?_set_self h]

theorem restore_set (σ : Store) (i : InstId) (b : Target) :
    (σ.set i { fetch σ i with targetValue := b }).set i
      { fetch (σ.set i { fetch σ i with targetValue := b }) i with
        targetValue := (fetch σ i).targetValue } = σ := by
  by_cases h : i < σ.length
  · rw [fetch_set_lt h, List.set_set]
    exact set_fetch σ i
  · have hle : σ.length ≤ i := Nat.le_of_not_lt h
    have h1 : σ.set i { fetch σ i with targetValue := b } = σ :=
      List.set_eq_of_length_le hle
    rw [h1]
    exact set_fetch σ i

theorem calcLoop_store (t : Decision) :
    ∀ (ids : List InstId) (σ : Store) (w : Nat), (calcLoop t ids σ w).1 = σ := by
  intro ids
  induction ids with
  | nil => intro σ w; rfl
  | cons i rest ih =>
    intro σ w
    simp only [calcLoop]
    cases hc : Classify t σ i with
    | mk σ1 oe =>
      cases oe with
      | some e => have := (classify_heap_effect t σ i).2 (by rw [hc]; simp)
                  rw [hc] at this
                  simpa using this
      | none =>
        obtain ⟨b, hb⟩ := (classify_heap_effect t σ i).1 (by rw [hc])
        rw [hc] at hb
        simp only at hb
        subst hb
        rw [ih]
        exact restore_set σ i b

/-- C9: a successful `CalculateError` run leaves the heap — in particular
every instance's target value — exactly as it found it: each target is
saved, overwritten by `Classify`, compared, and restored (and a failing
`Classify` never reaches the output node that would overwrite a target, so
even the aborted instance is untouched). -/
theorem calculateError_restores_targets (t : Decision) (σ : Store) (ids : List InstId)
    (σ' : Store) (r : GoFloat) (h : CalculateError t σ ids = (σ', r, none)) :
    σ' = σ ∧ ∀ i, (fetch σ' i).targetValue = (fetch σ i).targetValue := by
  have hs : σ' = σ := by
    have hst := calcLoop_store t ids σ 0
    unfold CalculateError at h
    split at h
    · simp at h
    with_reducible rename_i σ1 wrong heq
    rw [heq] at hst
    simp at hst h
    rw [← h.1, hst]
  exact ⟨hs, fun i => by rw [hs]⟩

/-- Witness for C9: evaluating the trained candy tree on the candy dataset
succeeds (rate 0) and returns the heap unchanged. -/
theorem calculateError_restores_targets_witness :
    CalculateError candyTrainedTree candyStore [0, 1, 2, 3] = (candyStore, ⟨0, 4⟩, none) ∧
    candyStore = candyStore ∧
    ∀ i, (fetch candyStore i).targetValue = (fetch candyStore i).targetValue :=
  ⟨by decide,
    (calculateError_restores_targets candyTrainedTree candyStore [0, 1, 2, 3]
      candyStore ⟨0, 4⟩ (by decide)).1 ▸ ⟨rfl, fun _ => rfl⟩⟩

theorem calcLoop_wrong_bound (t : Decision) :
    ∀ (ids : List InstId) (σ : Store) (w : Nat) σ' w',
      calcLoop t ids σ w = (σ', w', none) → w ≤ w' ∧ w' ≤ w + ids.length := by
  intro ids
  induction ids with
  | nil => intro σ w σ' w' h; simp [calcLoop] at h; omega
  | cons i rest ih =>
    intro σ w σ' w' h
    simp only [calcLoop] at h
    cases hc : Classify t σ i with
    | mk σ1 oe =>
      rw [hc] at h
      cases oe with
      | some e => simp at h
      | none =>
        simp only at h
        generalize hg : (if ((fetch σ i).targetValue != (fetch σ1 i).targetValue) = true
          then w + 1 else w) = w2 at h
        have hw2 : w ≤ w2 ∧ w2 ≤ w + 1 := by rw [← hg]; split <;> omega
        have hih := ih _ _ _ _ h
        have hl : (i :: rest).length = rest.length + 1 := rfl
        omega

/-- C8 counterexample: on the empty dataset `CalculateError` succeeds (a
`nil` error) but the returned "rate" is Go's `0.0/0.0`, i.e. NaN, which
does not lie in [0,1] — every IEEE comparison against NaN is false. -/
theorem calculateError_nan_on_empty :
    CalculateError (.output false) [] [] = ([], ⟨0, 0⟩, none) ∧
    GoFloat.isNan ⟨0, 0⟩ = true ∧ GoFloat.mem01 ⟨0, 0⟩ = false :=
  ⟨by decide, by decide, by decide⟩

/-- C8 amended: for every tree and every *non-empty* dataset, a successful
`CalculateError` returns a rate in [0,1] (the misclassification count never
exceeds the dataset size); on the empty dataset the returned value is NaN
instead. -/
theorem calculateError_rate_in_unit_interval (t : Decision) (σ : Store) (ids : List InstId)
    (hne : ids ≠ []) (σ' : Store) (r : GoFloat)
    (h : CalculateError t σ ids = (σ', r, none)) : r.mem01 = true := by
  unfold CalculateError at h
  split at h
  · simp at h
  with_reducible rename_i σ1 wrong heq
  simp only [Prod.mk.injEq] at h
  obtain ⟨-, hr, -⟩ := h
  have hb := calcLoop_wrong_bound t ids σ 0 σ1 wrong heq
  have hlen : ids.length ≠ 0 := fun hc => hne (List.length_eq_zero.mp hc)
  subst hr
  simp [GoFloat.mem01, GoFloat.le, GoFloat.isNan, hlen]
  omega

/-- Witness for the amended C8: a concrete non-empty evaluation whose rate
4/4 lies in [0,1]. -/
theorem calculateError_rate_in_unit_interval_witness :
    ([0, 1, 2, 3] ≠ ([] : List InstId)) ∧
    CalculateError (.node "sweet" [(0, .output true), (1, .output false)]) candyStore [0, 1, 2, 3]
      = (candyStore, ⟨4, 4⟩, none) ∧
    GoFloat.mem01 ⟨4, 4⟩ = true :=
  ⟨by decide, by decide,
    calculateError_rate_in_unit_interval (.node "sweet" [(0, .output true), (1, .output false)])
      candyStore [0, 1, 2, 3] (by decide) candyStore ⟨4, 4⟩ (by decide)⟩

/-
Budget accounting: the shared counter is decremented exactly once per
recursive call, i.e. once per constructed non-root node, modulo 2^64.
-/

theorem udecr_modeq (it : Nat) : Int.ModEq UWORD (udecr it) ((it : ℤ) - 1) := by
  unfold udecr UWORD
  push_cast
  have h1 : ((it : ℤ) + (2 ^ 64 - 1)) % 2 ^ 64 % 2 ^ 64 = ((it : ℤ) + (2 ^ 64 - 1)) % 2 ^ 64 :=
    Int.emod_emod_of_dvd _ dvd_rfl
  unfold Int.ModEq
  omega

theorem trainBuckets_budget
    (tr : Store → List InstId → Nat → Except Id3Error (Store × Nat × Decision))
    (htr : ∀ σ v it σ2 it2 c, tr σ v it = .ok (σ2, it2, c) →
      Int.ModEq UWORD ((it2 : ℤ) + sizeD c - 1) it)
    (featureName : String) :
    ∀ (bs : List (Feature × List InstId)) (σ : Store) (it : Nat) σ3 it3 cs,
      trainBuckets tr featureName bs σ it = .ok (σ3, it3, cs) →
      Int.ModEq UWORD ((it3 : ℤ) + sizeDL cs) it := by
  intro bs
  induction bs with
  | nil =>
    intro σ it σ3 it3 cs h
    simp [trainBuckets] at h
    obtain ⟨-, h2, h3⟩ := h
    subst h2; subst h3
    simp [sizeDL]
  | cons kv rest ih =>
    obtain ⟨k, v⟩ := kv
    intro σ it σ3 it3 cs h
    rw [trainBuckets] at h
    split at h
    · simp at h
    with_reducible rename_i σ2 it2 child hc
    split at h
    · simp at h
    with_reducible rename_i σr itr csr hrest
    simp at h
    obtain ⟨-, h2, h3⟩ := h
    subst h2; subst h3
    have hchild : Int.ModEq UWORD ((it2 : ℤ) + sizeD child - 1) (udecr it) :=
      htr _ _ _ _ _ _ hc
    have hchild2 : Int.ModEq UWORD ((it2 : ℤ) + sizeD child) it := by
      have := (hchild.trans (udecr_modeq it)).add_right 1
      have he : ((it2 : ℤ) + sizeD child - 1) + 1 = (it2 : ℤ) + sizeD child := by ring
      have he2 : ((it : ℤ) - 1) + 1 = (it : ℤ) := by ring
      rwa [he, he2] at this
    have hrest2 : Int.ModEq UWORD ((itr : ℤ) + sizeDL csr) it2 := ih _ _ _ _ _ hrest
    have := hrest2.add_right ((sizeD child : ℤ))
    have hsz : sizeDL ((k, child) :: csr) = sizeD child + sizeDL csr := by
      simp [sizeDL]
    rw [hsz]
    push_cast
    calc ((itr : ℤ) + (sizeD child + sizeDL csr)) = ((itr : ℤ) + sizeDL csr) + sizeD child := by ring
    _ ≡ (it2 : ℤ) + sizeD child [ZMOD UWORD] := hrest2.add_right _
    _ ≡ (it : ℤ) [ZMOD UWORD] := hchild2

/-- C3: during budget-bounded training the iteration budget is one counter
shared across the whole recursive call tree, decremented (as a 64-bit
unsigned integer) exactly once before each recursive call.  Each recursive
call constructs exactly one node of the result, so after a successful run
the returned counter satisfies `it' + (sizeD t - 1) ≡ it (mod 2^64)`:
the total draw-down is the number of non-root nodes, a global account a
per-branch budget would not satisfy. -/
theorem limitedTrain_shared_budget (bf : BestFeatureFunc) :
    ∀ (fuel : Nat) (σ : Store) (ids : List InstId) (it : Nat) σ' it' t,
      limitedTrain bf fuel σ ids it = .ok (σ', it', t) →
      Int.ModEq UWORD ((it' : ℤ) + sizeD t - 1) it := by
  intro fuel
  induction fuel with
  | zero => intro σ ids it σ' it' t h; simp [limitedTrain] at h
  | succ fuel ih =>
    intro σ ids it σ' it' t h
    simp only [limitedTrain] at h
    split at h
    · simp at h
    · split at h
      · simp at h
        obtain ⟨-, h2, h3⟩ := h
        subst h2; subst h3
        simp [sizeD]
      · split at h
        · simp at h
          obtain ⟨-, h2, h3⟩ := h
          subst h2; subst h3
          simp [sizeD]
        · split at h
          · simp at h
            obtain ⟨-, h2, h3⟩ := h
            subst h2; subst h3
            simp [sizeD]
          · cases hb : trainBuckets (limitedTrain bf fuel) (bf σ ids)
                (bucketize σ ids (bf σ ids)) (cloneStripped σ ids (bf σ ids)) it with
            | error e => rw [hb] at h; simp at h
            | ok r =>
              obtain ⟨σ2, it2, children⟩ := r
              rw [hb] at h
              simp at h
              obtain ⟨-, h2, h3⟩ := h
              subst h2; subst h3
              have hacc := trainBuckets_budget (limitedTrain bf fuel)
                (fun σa v ita σb itb c hc => ih σa v ita σb itb c hc)
                (bf σ ids) _ _ _ _ _ _ hb
              have hsz : sizeD (.node (bf σ ids) children) = 1 + sizeDL children := by
                simp [sizeD]
              rw [hsz]
              push_cast
              calc ((it2 : ℤ) + (1 + sizeDL children) - 1) = (it2 : ℤ) + sizeDL children := by ring
              _ ≡ (it : ℤ) [ZMOD UWORD] := hacc

/-- Witness for C3: the concrete candy run consumed 6 decrements and built
a 7-node tree. -/
theorem limitedTrain_shared_budget_witness :
    limitedTrain bfFirstSplit 20 candyStore [0, 1, 2, 3] (UWORD - 1)
      = .ok (candyTrainedStore, UWORD - 7, candyTrainedTree) ∧
    Int.ModEq UWORD (((UWORD - 7 : Nat) : ℤ) + sizeD candyTrainedTree - 1) ((UWORD - 1 : Nat) : ℤ) :=
  ⟨by decide,
    limitedTrain_shared_budget bfFirstSplit 20 candyStore [0, 1, 2, 3] (UWORD - 1)
      candyTrainedStore (UWORD - 7) candyTrainedTree (by decide)⟩

/-- The selector of the C4 run: a legal `BestFeatureFunc` choosing feature
"a" for the full four-instance dataset and "b" for any smaller bucket. -/
def bfC4 : BestFeatureFunc := fun _ ids => if ids.length = 4 then "a" else "b"

/-- The C4 dataset: both buckets of the root split on "a" are impure. -/
def storeC4 : Store :=
  [⟨[("a", 0), ("b", 0)], false⟩,
   ⟨[("a", 0), ("b", 1)], true⟩,
   ⟨[("a", 1), ("b", 0)], false⟩,
   ⟨[("a", 1), ("b", 1)], true⟩]

/-- C4, failing run: `LimitedTrain` with budget 1.  The root splits on "a";
the first bucket's recursive call runs with the counter at 0 and correctly
returns a majority leaf, but before the second bucket's call the source
executes `*iterations -= 1` on the exhausted unsigned counter, which wraps
to 2^64 - 1 and revives the budget: that sibling call — made after
exhaustion — builds a full internal subtree instead of a majority-vote
leaf, and training returns with the counter at 2^64 - 3. -/
theorem limitedTrain_budget_revival :
    (limitedTrain bfC4 64 storeC4 [0, 1, 2, 3] 1).map (fun r => (r.2.1, r.2.2))
      = .ok (UWORD - 3,
        .node "a" [(0, .output false),
                   (1, .node "b" [(0, .output false), (1, .output true)])]) ∧
    udecr 0 = UWORD - 1 := by
  exact ⟨by decide, by decide⟩

/-
Bucket combinatorics: buckets of a non-empty dataset are non-empty and
their sizes sum to the dataset size; with two or more buckets each is
strictly smaller than the dataset.
-/

def sumLens (bs : List (Feature × List InstId)) : Nat :=
  (bs.map (fun b => b.2.length)).sum

theorem addToBucket_sumLens (bs : List (Feature × List InstId)) (v : Feature) (i : InstId) :
    sumLens (addToBucket bs v i) = sumLens bs + 1 := by
  induction bs with
  | nil => simp [addToBucket, sumLens]
  | cons b rest ih =>
    obtain ⟨w, l⟩ := b
    by_cases h : w = v
    · simp [addToBucket, h, sumLens]
      omega
    · simp [addToBucket, h, sumLens] at ih ⊢
      omega

theorem addToBucket_nonempty (bs : List (Feature × List InstId)) (v : Feature) (i : InstId)
    (hb : ∀ kv ∈ bs, kv.2 ≠ []) : ∀ kv ∈ addToBucket bs v i, kv.2 ≠ [] := by
  induction bs with
  | nil => intro kv hkv; simp [addToBucket] at hkv; subst hkv; simp
  | cons b rest ih =>
    obtain ⟨w, l⟩ := b
    intro kv hkv
    by_cases h : w = v
    · simp [addToBucket, h] at hkv
      rcases hkv with h1 | h2
      · subst h1; simp
      · exact hb kv (by simp [h2])
    · simp [addToBucket, h] at hkv
      rcases hkv with h1 | h2
      · subst h1; exact hb (w, l) (by simp)
      · exact ih (fun kv2 hkv2 => hb kv2 (by simp [hkv2])) kv h2

theorem bucketize_facts (σ : Store) (featureName : String) :
    ∀ (ids : List InstId),
      (∀ kv ∈ bucketize σ ids featureName, kv.2 ≠ []) ∧
      sumLens (bucketize σ ids featureName) = ids.length := by
  have key : ∀ (ids : List InstId) (bs : List (Feature × List InstId)),
      (∀ kv ∈ bs, kv.2 ≠ []) →
      (∀ kv ∈ ids.foldl (fun bs2 i =>
          addToBucket bs2 (lookupFVD (fetch σ i).featureValues featureName) i) bs, kv.2 ≠ []) ∧
      sumLens (ids.foldl (fun bs2 i =>
          addToBucket bs2 (lookupFVD (fetch σ i).featureValues featureName) i) bs)
        = sumLens bs + ids.length := by
    intro ids
    induction ids with
    | nil => intro bs hb; exact ⟨hb, by simp⟩
    | cons i rest ih =>
      intro bs hb
      simp only [List.foldl_cons]
      have h1 := addToBucket_nonempty bs (lookupFVD (fetch σ i).featureValues featureName) i hb
      have h2 := ih _ h1
      refine ⟨h2.1, ?_⟩
      rw [h2.2, addToBucket_sumLens]
      simp
      omega
  intro ids
  have h := key ids [] (by simp)
  exact ⟨h.1, by simpa [bucketize, sumLens] using h.2⟩

theorem sumLens_ge_count (bs : List (Feature × List InstId)) (hb : ∀ kv ∈ bs, kv.2 ≠ []) :
    bs.length ≤ sumLens bs := by
  induction bs with
  | nil => simp [sumLens]
  | cons c rest ih =>
    have hc : c.2 ≠ [] := hb c (by simp)
    have hc2 : 1 ≤ c.2.length := by
      cases hcc : c.2 with
      | nil => exact absurd hcc hc
      | cons x xs => simp
    have := ih (fun kv2 hkv2 => hb kv2 (by simp [hkv2]))
    simp [sumLens] at this ⊢
    omega

theorem mem_sumLens (bs : List (Feature × List InstId)) (hb : ∀ kv ∈ bs, kv.2 ≠ []) :
    ∀ kv ∈ bs, kv.2.length + (bs.length - 1) ≤ sumLens bs := by
  induction bs with
  | nil => intro kv hkv; simp at hkv
  | cons b rest ih =>
    intro kv hkv
    rcases List.mem_cons.mp hkv with h1 | h2
    · subst h1
      have hrest : rest.length ≤ sumLens rest :=
        sumLens_ge_count rest (fun kv2 hkv2 => hb kv2 (by simp [hkv2]))
      simp [sumLens] at hrest ⊢
      omega
    · have := ih (fun kv2 hkv2 => hb kv2 (by simp [hkv2])) kv h2
      have hbne : b.2 ≠ [] := hb b (by simp)
      have hb1 : 1 ≤ b.2.length := by
        cases hcc : b.2 with
        | nil => exact absurd hcc hbne
        | cons x xs => simp
      simp [sumLens] at this ⊢
      omega

theorem udecr_of_pos {it : Nat} (h0 : it ≠ 0) (hU : it < UWORD) : udecr it = it - 1 := by
  unfold udecr UWORD at *
  omega

theorem udecr_lt_UWORD (it : Nat) : udecr it < UWORD := by
  unfold udecr UWORD
  exact Nat.mod_lt _ (by norm_num)

theorem trainBuckets_total
    (tr : Store → List InstId → Nat → Except Id3Error (Store × Nat × Decision))
    (fuelI : Nat)
    (htr : ∀ σ v it, v ≠ [] → it < UWORD → v.length * UWORD + it < fuelI →
      ∃ σ2 it2 c, tr σ v it = .ok (σ2, it2, c) ∧ it2 < UWORD)
    (featureName : String) :
    ∀ (bs : List (Feature × List InstId)) (σ : Store) (it : Nat),
      it < UWORD →
      (∀ kv ∈ bs, kv.2 ≠ [] ∧ (kv.2.length + 1) * UWORD ≤ fuelI) →
      ∃ σ3 it3 cs, trainBuckets tr featureName bs σ it = .ok (σ3, it3, cs) ∧ it3 < UWORD := by
  intro bs
  induction bs with
  | nil => intro σ it hU hbs; exact ⟨σ, it, [], by simp [trainBuckets], hU⟩
  | cons kv rest ih =>
    obtain ⟨k, v⟩ := kv
    intro σ it hU hbs
    have hv := hbs (k, v) (by simp)
    have hm : v.length * UWORD + udecr it < fuelI := by
      have h1 := udecr_lt_UWORD it
      have h2 := hv.2
      simp only at h2
      have hexp : (v.length + 1) * UWORD = v.length * UWORD + UWORD := by ring
      rw [hexp] at h2
      generalize v.length * UWORD = A at h2 ⊢
      omega
    obtain ⟨σ2, it2, c, hc, hit2⟩ := htr σ v (udecr it) hv.1 (udecr_lt_UWORD it) hm
    obtain ⟨σ3, it3, cs, hrest, hit3⟩ :=
      ih σ2 it2 hit2 (fun kv2 hkv2 => hbs kv2 (by simp [hkv2]))
    refine ⟨σ3, it3, (k, c) :: cs, ?_, hit3⟩
    simp [trainBuckets, hc, hrest]

theorem limitedTrain_total (bf : BestFeatureFunc) :
    ∀ (fuel : Nat) (σ : Store) (ids : List InstId) (it : Nat),
      it < UWORD → ids ≠ [] → ids.length * UWORD + it < fuel →
      ∃ σ' it' t, limitedTrain bf fuel σ ids it = .ok (σ', it', t) ∧ it' < UWORD := by
  intro fuel
  induction fuel with
  | zero => intro σ ids it hU hne hm; omega
  | succ fuel ih =>
    intro σ ids it hU hne hm
    have hie : ids.isEmpty = false := by
      cases ids with
      | nil => exact absurd rfl hne
      | cons a b => rfl
    by_cases hbf : bf σ ids = ""
    · exact ⟨σ, it, .output (mostPopularTarget σ ids), by simp [limitedTrain, hie, hbf], hU⟩
    · by_cases hit0 : it = 0
      · exact ⟨σ, it, .output (mostPopularTarget σ ids),
          by simp [limitedTrain, hie, hbf, hit0], hU⟩
      · by_cases hid : instancesIdentical σ ids = true
        · exact ⟨σ, it, .output (fetch σ (ids.headD 0)).targetValue,
            by simp [limitedTrain, hie, hbf, hit0, hid], hU⟩
        · have hfacts := bucketize_facts σ (bf σ ids) ids
          have hready : ∃ σ3 it3 cs,
              trainBuckets (limitedTrain bf fuel) (bf σ ids) (bucketize σ ids (bf σ ids))
                (cloneStripped σ ids (bf σ ids)) it = .ok (σ3, it3, cs) ∧ it3 < UWORD := by
            cases hbs : bucketize σ ids (bf σ ids) with
            | nil =>
                exact ⟨cloneStripped σ ids (bf σ ids), it, [], by simp [trainBuckets], hU⟩
            | cons kv1 rest1 =>
              cases hrest1 : rest1 with
              | nil =>
                obtain ⟨k, v⟩ := kv1
                have hlen : v.length = ids.length := by
                  have := hfacts.2
                  rw [hbs, hrest1] at this
                  simp [sumLens] at this
                  exact this
                have hvne : v ≠ [] := by
                  have := hfacts.1 (k, v) (by rw [hbs, hrest1]; simp)
                  exact this
                have hdecr := udecr_of_pos hit0 hU
                obtain ⟨σ2, it2, c, hc, hit2⟩ := ih (cloneStripped σ ids (bf σ ids)) v (udecr it)
                  (udecr_lt_UWORD it) hvne (by
                    rw [hlen, hdecr]
                    generalize ids.length * UWORD = B at hm ⊢
                    omega)
                refine ⟨σ2, it2, [(k, c)], ?_, hit2⟩
                simp [trainBuckets, hc]
              | cons kv2 rest2 =>
                apply trainBuckets_total (limitedTrain bf fuel) fuel
                  (fun σa v ita hvne hUa hma => ih σa v ita hUa hvne hma) (bf σ ids) _ _ _ hU
                intro kv hkv
                rw [← hrest1] at hkv
                rw [← hbs] at hkv
                have hne2 := hfacts.1 kv hkv
                have hlt : kv.2.length < ids.length := by
                  have hsum := hfacts.2
                  have hmem := mem_sumLens _ hfacts.1 kv hkv
                  have hcount : 2 ≤ (bucketize σ ids (bf σ ids)).length := by
                    rw [hbs, hrest1]
                    simp
                  omega
                have hstep : (kv.2.length + 1) * UWORD ≤ ids.length * UWORD :=
                  Nat.mul_le_mul_right _ (by omega)
                refine ⟨hne2, ?_⟩
                generalize hB : ids.length * UWORD = B at hstep hm
                omega
          obtain ⟨σ3, it3, cs, htb, hit3⟩ := hready
          refine ⟨σ3, it3, .node (bf σ ids) cs, ?_, hit3⟩
          simp [limitedTrain, hie, hbf, hit0, hid, htb]

/-- C5: `limitedTrain` (hence `Train` and `LimitedTrain`), given enough
fuel, fails exactly on the empty dataset: with zero instances it returns
the `EmptyDataset` error, and on every non-empty dataset — for every
selector and every budget — it returns a tree.  In particular the internal
"no instances available to extend tree" branch is unreachable: every bucket
passed to a recursive call is a non-empty part of a non-empty dataset.
(The fuel bound covers the worst case; a Go `uint` budget satisfies
`it < UWORD`.) -/
theorem train_fails_iff_empty (bf : BestFeatureFunc) (fuel : Nat) (σ : Store)
    (ids : List InstId) (it : Nat) (hU : it < UWORD)
    (hfuel : ids.length * UWORD + it < fuel) :
    (ids = [] → limitedTrain bf fuel σ ids it = .error .emptyDataset) ∧
    (ids ≠ [] → ∃ σ' it' t, limitedTrain bf fuel σ ids it = .ok (σ', it', t)) := by
  constructor
  · intro he
    subst he
    cases fuel with
    | zero => omega
    | succ n => simp [limitedTrain]
  · intro hne
    obtain ⟨σ', it', t, h, -⟩ := limitedTrain_total bf fuel σ ids it hU hne hfuel
    exact ⟨σ', it', t, h⟩

/-- Witness for C5, non-empty side at a concrete input (the fuel literal
satisfies the bound `4 * 2^64 + (2^64 - 1) < fuel`). -/
theorem train_fails_iff_empty_witness :
    ((UWORD - 1 : Nat) < UWORD ∧ ([0, 1, 2, 3] : List InstId).length * UWORD + (UWORD - 1) < 6 * UWORD) ∧
    (([0, 1, 2, 3] : List InstId) ≠ [] →
      ∃ σ' it' t, limitedTrain bfFirstSplit (6 * UWORD) candyStore [0, 1, 2, 3] (UWORD - 1)
        = .ok (σ', it', t)) :=
  ⟨⟨by decide, by decide⟩,
    (train_fails_iff_empty bfFirstSplit (6 * UWORD) candyStore [0, 1, 2, 3] (UWORD - 1)
      (by decide) (by decide)).2⟩

/-
Leaf replacement preserves classification success: replacing any subtree by
an output node can only remove failure points, never add them.
-/

theorem calculateError_store (t : Decision) (σ : Store) (ids : List InstId) :
    (CalculateError t σ ids).1 = σ := by
  unfold CalculateError
  split
  with_reducible rename_i σ1 w e heq
  · have := calcLoop_store t ids σ 0
    rw [heq] at this
    simpa using this
  with_reducible rename_i σ1 w heq
  have := calcLoop_store t ids σ 0
  rw [heq] at this
  simpa using this

theorem classifyStep_mapChild (k : Feature) (f : Decision → Decision)
    (hf : ∀ c (σ : Store) (i : InstId), (Classify c σ i).2 = none → (Classify (f c) σ i).2 = none) :
    ∀ (cs : List (Feature × Decision)) (fn : String) (v : Feature) (σ : Store) (i : InstId),
      (classifyStep cs fn v σ i).2 = none →
      (classifyStep (mapChild k f cs) fn v σ i).2 = none := by
  intro cs
  induction cs with
  | nil => intro fn v σ i h; simp [classifyStep] at h
  | cons kc rest ih =>
    obtain ⟨j, c⟩ := kc
    intro fn v σ i h
    by_cases hk : j = k
    · subst hk
      have hgoal : mapChild j f ((j, c) :: rest) = (j, f c) :: mapChild j f rest := by
        simp [mapChild]
      rw [hgoal]
      simp only [classifyStep] at h ⊢
      by_cases hj : j = v
      · simp only [if_pos hj] at h ⊢
        exact hf c σ i h
      · simp only [if_neg hj] at h ⊢
        exact ih fn v σ i h
    · have hgoal : mapChild k f ((j, c) :: rest) = (j, c) :: mapChild k f rest := by
        simp [mapChild, hk]
      rw [hgoal]
      simp only [classifyStep] at h ⊢
      by_cases hj : j = v
      · simp only [if_pos hj] at h ⊢
        exact h
      · simp only [if_neg hj] at h ⊢
        exact ih fn v σ i h

theorem classify_replace_leaf :
    ∀ (p : TreePath) (t : Decision) (b : Target) (σ : Store) (i : InstId),
      (Classify t σ i).2 = none →
      (Classify (replaceAt t p (.output b)) σ i).2 = none := by
  intro p
  induction p with
  | nil => intro t b σ i _; simp [replaceAt, Classify]
  | cons k p ih =>
    intro t b σ i h
    cases t with
    | output v => simpa [replaceAt] using h
    | node fn cs =>
      simp only [replaceAt]
      simp only [Classify] at h ⊢
      cases hlf : lookupFV (fetch σ i).featureValues fn with
      | none => rw [hlf] at h; simp at h
      | some v =>
        rw [hlf] at h
        exact classifyStep_mapChild k (fun c => replaceAt c p (.output b))
          (fun c σ2 i2 hc => ih c b σ2 i2 hc) cs fn v σ i h

theorem calcLoop_replace_leaf (t : Decision) (p : TreePath) (b : Target) :
    ∀ (ids : List InstId) (σ : Store) (w w2 : Nat),
      (calcLoop t ids σ w).2.2 = none →
      (calcLoop (replaceAt t p (.output b)) ids σ w2).2.2 = none := by
  intro ids
  induction ids with
  | nil => intro σ w w2 _; simp [calcLoop]
  | cons i rest ih =>
    intro σ w w2 h
    simp only [calcLoop] at h ⊢
    cases hc : Classify t σ i with
    | mk σ1 oe =>
      rw [hc] at h
      cases oe with
      | some e => simp at h
      | none =>
        simp only at h
        have hsucc : (Classify (replaceAt t p (.output b)) σ i).2 = none :=
          classify_replace_leaf p t b σ i (by rw [hc])
        cases hc2 : Classify (replaceAt t p (.output b)) σ i with
        | mk τ1 oe2 =>
          rw [hc2] at hsucc
          simp only at hsucc
          subst hsucc
          simp only []
          -- both runs restore the heap to σ before recursing
          obtain ⟨b1, hb1⟩ := (classify_heap_effect t σ i).1 (by rw [hc])
          rw [hc] at hb1
          simp only at hb1
          subst hb1
          obtain ⟨b2, hb2⟩ := (classify_heap_effect (replaceAt t p (.output b)) σ i).1 (by rw [hc2])
          rw [hc2] at hb2
          simp only at hb2
          subst hb2
          rw [restore_set] at h ⊢
          exact ih σ _ _ h

theorem calculateError_replace_leaf (t : Decision) (p : TreePath) (b : Target)
    (σ : Store) (ids : List InstId) (h : (CalculateError t σ ids).2.2 = none) :
    (CalculateError (replaceAt t p (.output b)) σ ids).2.2 = none := by
  unfold CalculateError at h ⊢
  split at h
  · simp at h
  with_reducible rename_i σ1 w heq
  have h2 : (calcLoop (replaceAt t p (.output b)) ids σ 0).2.2 = none :=
    calcLoop_replace_leaf t p b ids σ 0 0 (by rw [heq])
  split
  with_reducible rename_i τ1 w2 e2 heq2
  · rw [heq2] at h2; simp at h2
  · simp

theorem pruneChildren_eq (validate : List InstId) (path : TreePath)
    (bmap : List (Feature × List InstId)) :
    ∀ (children : List (Feature × Decision)) (σ : Store) (root : Decision),
      pruneChildren validate path bmap children σ root
        = pruneChildrenSpec validate path bmap children σ root := by
  intro children
  induction children with
  | nil => intro σ root; rfl
  | cons kc rest ih =>
    obtain ⟨featureValue, subTree⟩ := kc
    intro σ root
    rw [pruneChildren, pruneChildrenSpec]
    cases h1 : CalculateError root σ validate with
    | mk σ1 re =>
      obtain ⟨prevError, oe⟩ := re
      cases oe with
      | some e => rfl
      | none =>
        have hσ1 : σ1 = σ := by
          have := calculateError_store root σ validate
          rw [h1] at this
          exact this
        simp only []
        have hsucc : (CalculateError (replaceAt root (path ++ [featureValue])
            (.output (mostPopularTarget σ1 ((lookupBucket bmap featureValue).getD [])))) σ1
            validate).2.2 = none := by
          subst hσ1
          apply calculateError_replace_leaf
          rw [h1]
        cases h2 : CalculateError (replaceAt root (path ++ [featureValue])
            (.output (mostPopularTarget σ1 ((lookupBucket bmap featureValue).getD [])))) σ1
            validate with
        | mk σ2 re2 =>
          obtain ⟨postError, oe2⟩ := re2
          rw [h2] at hsucc
          simp only at hsucc
          subst hsucc
          simp only []
          split
          · rw [ih]
          · rw [ih]

theorem pruneLoop_eq (validate : List InstId) :
    ∀ (fuel : Nat) (stack : List (TreePath × List InstId)) (σ : Store) (root : Decision),
      pruneLoop validate fuel stack σ root = pruneLoopSpec validate fuel stack σ root := by
  intro fuel
  induction fuel with
  | zero => intro stack σ root; rfl
  | succ fuel ih =>
    intro stack σ root
    cases stack with
    | nil => rfl
    | cons entry rest =>
      obtain ⟨path, curIds⟩ := entry
      rw [pruneLoop, pruneLoopSpec]
      cases hg : getPath root path with
      | none => exact ih rest σ root
      | some cur =>
        cases cur with
        | output v => exact ih rest σ root
        | node featureName cs =>
          dsimp only
          rw [pruneChildren_eq]
          cases hpc : pruneChildrenSpec validate path (bucketize σ curIds featureName) cs σ root with
          | mk σ1 r1 =>
            obtain ⟨root1, pushes, oe⟩ := r1
            cases oe with
            | some e => rfl
            | none => exact ih _ _ _

/-- C2: no classification failure inside `ReducedErrorPrune` is silently
swallowed.  The source checks and returns the error of the first
(pre-replacement) whole-tree evaluation but drops the error of the second
(post-replacement) one; that drop is harmless because replacing a subtree
by an output leaf preserves evaluation success, so the pruner is
extensionally equal to the specification's variant
`ReducedErrorPruneSpec`, which checks and returns every evaluation error. -/
theorem reducedErrorPrune_returns_every_error (fuel : Nat) (root : Decision) (σ : Store)
    (validate : List InstId) :
    ReducedErrorPrune fuel root σ validate = ReducedErrorPruneSpec fuel root σ validate := by
  unfold ReducedErrorPrune ReducedErrorPruneSpec
  exact pruneLoop_eq validate fuel [([], validate)] σ root

/-
Path surgery: replacing at a path, reading other paths, exact reverts, and
preservation of well-formedness.
-/

theorem mapChild_keys (k : Feature) (f : Decision → Decision) (cs : List (Feature × Decision)) :
    (mapChild k f cs).map (fun p => p.1) = cs.map (fun p => p.1) := by
  induction cs with
  | nil => rfl
  | cons kc rest ih =>
    obtain ⟨j, c⟩ := kc
    by_cases hj : j = k <;> simp [mapChild, hj] at ih ⊢ <;> exact ih

theorem mapChild_cons (k : Feature) (f : Decision → Decision) (j : Feature) (c : Decision)
    (rest : List (Feature × Decision)) :
    mapChild k f ((j, c) :: rest)
      = (if j = k then (j, f c) else (j, c)) :: mapChild k f rest := by
  by_cases hj : j = k <;> simp [mapChild, hj]

theorem lookupChild_cons (j : Feature) (c : Decision) (rest : List (Feature × Decision))
    (key : Feature) :
    lookupChild ((j, c) :: rest) key = if j = key then some c else lookupChild rest key := rfl

theorem lookupChild_mapChild (k : Feature) (f : Decision → Decision) (v : Feature) :
    ∀ cs : List (Feature × Decision),
      lookupChild (mapChild k f cs) v
        = if v = k then (lookupChild cs v).map f else lookupChild cs v := by
  intro cs
  induction cs with
  | nil => simp [mapChild, lookupChild]
  | cons kc rest ih =>
    obtain ⟨j, c⟩ := kc
    rw [mapChild_cons]
    by_cases hj : j = k
    · rw [if_pos hj]
      by_cases hv : j = v
      · subst hv
        rw [lookupChild_cons, if_pos rfl, lookupChild_cons, if_pos rfl]
        simp [hj]
      · rw [lookupChild_cons, if_neg hv, lookupChild_cons, if_neg hv, ih]
    · rw [if_neg hj]
      by_cases hv : j = v
      · subst hv
        rw [lookupChild_cons, if_pos rfl, lookupChild_cons, if_pos rfl, if_neg hj]
      · rw [lookupChild_cons, if_neg hv, lookupChild_cons, if_neg hv, ih]

theorem mapChild_congr (k : Feature) {f g : Decision → Decision} (h : ∀ c, f c = g c)
    (cs : List (Feature × Decision)) : mapChild k f cs = mapChild k g cs := by
  induction cs with
  | nil => rfl
  | cons kc rest ih =>
    obtain ⟨j, c⟩ := kc
    by_cases hj : j = k <;> simp [mapChild, hj] at ih ⊢ <;> simp [h, ih]

theorem mapChild_mapChild (k : Feature) (f g : Decision → Decision)
    (cs : List (Feature × Decision)) :
    mapChild k f (mapChild k g cs) = mapChild k (fun c => f (g c)) cs := by
  induction cs with
  | nil => rfl
  | cons kc rest ih =>
    obtain ⟨j, c⟩ := kc
    by_cases hj : j = k <;> simp [mapChild, hj] at ih ⊢ <;> exact ih

theorem replaceAt_nil (t r : Decision) : replaceAt t [] r = r := by
  cases t <;> rfl

theorem replace_replace (x y : Decision) :
    ∀ (p : TreePath) (t : Decision), replaceAt (replaceAt t p x) p y = replaceAt t p y := by
  intro p
  induction p with
  | nil => intro t; rw [replaceAt_nil, replaceAt_nil]
  | cons k p ih =>
    intro t
    cases t with
    | output v => rfl
    | node fn cs =>
      simp only [replaceAt, mapChild_mapChild]
      congr 1
      exact mapChild_congr k (fun c => ih c) cs

theorem mapChild_of_not_mem (k : Feature) (f : Decision → Decision) :
    ∀ (cs : List (Feature × Decision)), k ∉ cs.map (fun p => p.1) →
    mapChild k f cs = cs := by
  intro cs
  induction cs with
  | nil => intro _; rfl
  | cons kc rest ih =>
    obtain ⟨j, c⟩ := kc
    intro h
    simp only [List.map_cons, List.mem_cons] at h
    push_neg at h
    have hj : j ≠ k := fun hc => h.1 hc.symm
    simp only [mapChild, List.map_cons, if_neg hj]
    have htail := ih h.2
    simp only [mapChild] at htail
    rw [htail]

theorem lookupChild_mem (k : Feature) (c : Decision) :
    ∀ cs : List (Feature × Decision), lookupChild cs k = some c → (k, c) ∈ cs := by
  intro cs
  induction cs with
  | nil => intro h; simp [lookupChild] at h
  | cons kc rest ih =>
    obtain ⟨j, d⟩ := kc
    intro h
    rw [lookupChild_cons] at h
    by_cases hj : j = k
    · rw [if_pos hj] at h
      simp at h
      subst hj; subst h
      simp
    · rw [if_neg hj] at h
      exact List.mem_cons_of_mem _ (ih h)

theorem lookupChild_of_mem_nodup (k : Feature) (c : Decision) :
    ∀ cs : List (Feature × Decision), (k, c) ∈ cs → (cs.map (fun p => p.1)).Nodup →
      lookupChild cs k = some c := by
  intro cs
  induction cs with
  | nil => intro h _; simp at h
  | cons kc rest ih =>
    obtain ⟨j, d⟩ := kc
    intro h hnd
    simp only [List.map_cons, List.nodup_cons] at hnd
    rcases List.mem_cons.mp h with h1 | h2
    · obtain ⟨rfl, rfl⟩ := Prod.mk.injEq .. ▸ h1
      rw [lookupChild_cons, if_pos rfl]
    · have hj : j ≠ k := by
        intro hc
        subst hc
        exact hnd.1 (by simpa using List.mem_map_of_mem (fun p => p.1) h2)
      rw [lookupChild_cons, if_neg hj]
      exact ih h2 hnd.2

theorem wfDL_forall : ∀ cs : List (Feature × Decision), wfDL cs = true →
    ∀ kc ∈ cs, wfD kc.2 = true := by
  intro cs
  induction cs with
  | nil => intro _ kc h; simp at h
  | cons kc2 rest ih =>
    obtain ⟨j, d⟩ := kc2
    intro hw kc h
    rw [wfDL] at hw
    simp only [Bool.and_eq_true] at hw
    rcases List.mem_cons.mp h with h1 | h2
    · subst h1; exact hw.1
    · exact ih hw.2 kc h2

theorem wfD_node_elim {fn : String} {cs : List (Feature × Decision)}
    (h : wfD (.node fn cs) = true) :
    (cs.map (fun p => p.1)).Nodup ∧ wfDL cs = true := by
  rw [wfD] at h
  simp only [Bool.and_eq_true, decide_eq_true_eq] at h
  exact h

theorem getPath_cons (fn : String) (cs : List (Feature × Decision)) (k : Feature) (p : TreePath) :
    getPath (.node fn cs) (k :: p)
      = match lookupChild cs k with
        | some c => getPath c p
        | none => none := rfl

theorem mapChild_lookup_id (k : Feature) (f : Decision → Decision) (c : Decision) :
    ∀ cs : List (Feature × Decision), (cs.map (fun p => p.1)).Nodup →
      lookupChild cs k = some c → f c = c → mapChild k f cs = cs := by
  intro cs
  induction cs with
  | nil => intro _ h _; simp [lookupChild] at h
  | cons kc rest ih =>
    obtain ⟨j, d⟩ := kc
    intro hnd hl hf
    simp only [List.map_cons, List.nodup_cons] at hnd
    rw [lookupChild_cons] at hl
    rw [mapChild_cons]
    by_cases hj : j = k
    · rw [if_pos hj] at hl ⊢
      simp only [Option.some.injEq] at hl
      subst hl
      rw [hf]
      subst hj
      rw [mapChild_of_not_mem _ _ _ hnd.1]
    · rw [if_neg hj] at hl ⊢
      rw [ih hnd.2 hl hf]

theorem replace_self : ∀ (p : TreePath) (t s : Decision),
    wfD t = true → getPath t p = some s → replaceAt t p s = t := by
  intro p
  induction p with
  | nil =>
    intro t s _ hg
    simp [getPath] at hg
    rw [replaceAt_nil, hg]
  | cons k p ih =>
    intro t s hw hg
    cases t with
    | output v => simp [getPath] at hg
    | node fn cs =>
      rw [getPath_cons] at hg
      cases hl : lookupChild cs k with
      | none => rw [hl] at hg; simp at hg
      | some c =>
        rw [hl] at hg
        simp only at hg
        obtain ⟨hnd, hwl⟩ := wfD_node_elim hw
        have hwc : wfD c = true := wfDL_forall cs hwl (k, c) (lookupChild_mem k c cs hl)
        simp only [replaceAt]
        rw [mapChild_lookup_id k _ c cs hnd hl (ih c s hwc hg)]

theorem getPath_replace_other (x : Decision) (k k' : Feature) (hkk : k' ≠ k) :
    ∀ (p : TreePath) (t : Decision),
      getPath (replaceAt t (p ++ [k]) x) (p ++ [k']) = getPath t (p ++ [k']) := by
  intro p
  induction p with
  | nil =>
    intro t
    cases t with
    | output v => rfl
    | node fn cs =>
      simp only [List.nil_append, replaceAt, getPath_cons]
      rw [lookupChild_mapChild, if_neg hkk]
  | cons j p ih =>
    intro t
    cases t with
    | output v => rfl
    | node fn cs =>
      simp only [List.cons_append, replaceAt, getPath_cons]
      rw [lookupChild_mapChild, if_pos rfl]
      cases hl : lookupChild cs j with
      | none => rfl
      | some c =>
        simp only [Option.map_some]
        exact ih c

theorem wfDL_mapChild (k : Feature) (f : Decision → Decision)
    (hf : ∀ c, wfD c = true → wfD (f c) = true) :
    ∀ cs : List (Feature × Decision), wfDL cs = true → wfDL (mapChild k f cs) = true := by
  intro cs
  induction cs with
  | nil => intro h; exact h
  | cons kc rest ih =>
    obtain ⟨j, d⟩ := kc
    intro hw
    rw [wfDL] at hw
    simp only [Bool.and_eq_true] at hw
    rw [mapChild_cons]
    by_cases hj : j = k
    · rw [if_pos hj, wfDL]
      simp only [Bool.and_eq_true]
      exact ⟨hf d hw.1, ih hw.2⟩
    · rw [if_neg hj, wfDL]
      simp only [Bool.and_eq_true]
      exact ⟨hw.1, ih hw.2⟩

theorem wf_replace (r : Decision) (hr : wfD r = true) :
    ∀ (p : TreePath) (t : Decision), wfD t = true → wfD (replaceAt t p r) = true := by
  intro p
  induction p with
  | nil => intro t _; rw [replaceAt_nil]; exact hr
  | cons k p ih =>
    intro t hw
    cases t with
    | output v => exact hw
    | node fn cs =>
      obtain ⟨hnd, hwl⟩ := wfD_node_elim hw
      simp only [replaceAt, wfD]
      simp only [Bool.and_eq_true, decide_eq_true_eq]
      constructor
      · rw [mapChild_keys]; exact hnd
      · exact wfDL_mapChild k _ (fun c hc => ih c hc) cs hwl

theorem wf_getPath : ∀ (p : TreePath) (t s : Decision),
    wfD t = true → getPath t p = some s → wfD s = true := by
  intro p
  induction p with
  | nil => intro t s hw hg; simp [getPath] at hg; rw [← hg]; exact hw
  | cons k p ih =>
    intro t s hw hg
    cases t with
    | output v => simp [getPath] at hg
    | node fn cs =>
      rw [getPath_cons] at hg
      cases hl : lookupChild cs k with
      | none => rw [hl] at hg; simp at hg
      | some c =>
        rw [hl] at hg
        simp only at hg
        obtain ⟨-, hwl⟩ := wfD_node_elim hw
        exact ih c s (wfDL_forall cs hwl (k, c) (lookupChild_mem k c cs hl)) hg

theorem getPath_append_child (k : Feature) (c : Decision) :
    ∀ (p : TreePath) (t : Decision) (fn : String) (cs : List (Feature × Decision)),
      getPath t p = some (.node fn cs) → lookupChild cs k = some c →
      getPath t (p ++ [k]) = some c := by
  intro p
  induction p with
  | nil =>
    intro t fn cs hg hl
    simp [getPath] at hg
    subst hg
    simp only [List.nil_append, getPath_cons, hl]
    simp [getPath]
  | cons j p ih =>
    intro t fn cs hg hl
    cases t with
    | output v => simp [getPath] at hg
    | node fn2 cs2 =>
      rw [getPath_cons] at hg
      cases hl2 : lookupChild cs2 j with
      | none => rw [hl2] at hg; simp at hg
      | some d =>
        rw [hl2] at hg
        simp only at hg
        simp only [List.cons_append, getPath_cons, hl2]
        exact ih d fn cs hg hl

theorem calculateError_success_shape (t : Decision) (σ : Store) (ids : List InstId)
    (h : (CalculateError t σ ids).2.2 = none) :
    ∃ w, CalculateError t σ ids = (σ, ⟨w, ids.length⟩, none) := by
  unfold CalculateError at h ⊢
  split at h
  · simp at h
  with_reducible rename_i σ1 w heq
  have hσ1 : σ1 = σ := by
    have h2 := calcLoop_store t ids σ 0
    rw [heq] at h2
    exact h2
  subst hσ1
  exact ⟨w, rfl⟩

theorem pruneChildren_store (validate : List InstId) (path : TreePath)
    (bmap : List (Feature × List InstId)) :
    ∀ (children : List (Feature × Decision)) (σ : Store) (root : Decision),
      (pruneChildren validate path bmap children σ root).1 = σ := by
  intro children
  induction children with
  | nil => intro σ root; rfl
  | cons kc rest ih =>
    obtain ⟨featureValue, subTree⟩ := kc
    intro σ root
    rw [pruneChildren]
    cases h1 : CalculateError root σ validate with
    | mk σ1 re =>
      obtain ⟨prevError, oe⟩ := re
      have hσ1 : σ1 = σ := by
        have := calculateError_store root σ validate
        rw [h1] at this
        exact this
      subst hσ1
      cases oe with
      | some e => rfl
      | none =>
        dsimp only
        cases h2 : CalculateError (replaceAt root (path ++ [featureValue])
            (.output (mostPopularTarget σ1 ((lookupBucket bmap featureValue).getD [])))) σ1
            validate with
        | mk σ2 re2 =>
          obtain ⟨postError, oe2⟩ := re2
          have hσ2 : σ2 = σ1 := by
            have := calculateError_store (replaceAt root (path ++ [featureValue])
              (.output (mostPopularTarget σ1 ((lookupBucket bmap featureValue).getD []))))
              σ1 validate
            rw [h2] at this
            exact this
          subst hσ2
          dsimp only
          split
          · cases hrec : pruneChildren validate path bmap rest σ2
                (replaceAt (replaceAt root (path ++ [featureValue])
                  (.output (mostPopularTarget σ2 ((lookupBucket bmap featureValue).getD []))))
                  (path ++ [featureValue]) subTree) with
            | mk σ3 r3 =>
              obtain ⟨rootF, pushes, err⟩ := r3
              have := ih σ2 (replaceAt (replaceAt root (path ++ [featureValue])
                (.output (mostPopularTarget σ2 ((lookupBucket bmap featureValue).getD []))))
                (path ++ [featureValue]) subTree)
              rw [hrec] at this
              simpa [hrec] using this
          · exact ih σ2 _

theorem pruneChildren_mono (validate : List InstId) (path : TreePath)
    (bmap : List (Feature × List InstId)) (hn : validate.length ≠ 0) :
    ∀ (children : List (Feature × Decision)) (root : Decision) (σ σ' : Store)
      (rootR : Decision) (pushes : List (TreePath × List InstId)) (q : Nat),
      pruneChildren validate path bmap children σ root = (σ', rootR, pushes, none) →
      wfD root = true →
      (∀ kc ∈ children, getPath root (path ++ [kc.1]) = some kc.2) →
      (children.map (fun p => p.1)).Nodup →
      CalculateError root σ validate = (σ, ⟨q, validate.length⟩, none) →
      ∃ q', CalculateError rootR σ validate = (σ, ⟨q', validate.length⟩, none) ∧
        q' ≤ q ∧ wfD rootR = true := by
  intro children
  induction children with
  | nil =>
    intro root σ σ' rootR pushes q h hw _ _ hrate
    rw [pruneChildren] at h
    simp only [Prod.mk.injEq] at h
    obtain ⟨-, h2, -, -⟩ := h
    subst h2
    exact ⟨q, hrate, le_refl q, hw⟩
  | cons kc rest ih =>
    obtain ⟨featureValue, subTree⟩ := kc
    intro root σ σ' rootR pushes q h hw hpaths hnd hrate
    rw [pruneChildren, hrate] at h
    dsimp only at h
    have hsucc : (CalculateError (replaceAt root (path ++ [featureValue])
        (.output (mostPopularTarget σ ((lookupBucket bmap featureValue).getD [])))) σ
        validate).2.2 = none := by
      apply calculateError_replace_leaf
      rw [hrate]
    obtain ⟨w2, h2⟩ := calculateError_success_shape _ σ validate hsucc
    rw [h2] at h
    dsimp only at h
    have hkrest : featureValue ∉ rest.map (fun p => p.1) := by
      simp only [List.map_cons, List.nodup_cons] at hnd
      exact hnd.1
    have hndrest : (rest.map (fun p => p.1)).Nodup := by
      simp only [List.map_cons, List.nodup_cons] at hnd
      exact hnd.2
    split at h
    · -- postError > prevError: revert and push
      with_reducible rename_i hgt
      cases hrec : pruneChildren validate path bmap rest σ
          (replaceAt (replaceAt root (path ++ [featureValue])
            (.output (mostPopularTarget σ ((lookupBucket bmap featureValue).getD []))))
            (path ++ [featureValue]) subTree) with
      | mk σ3 r3 =>
        obtain ⟨rootF, pushes3, err3⟩ := r3
        rw [hrec] at h
        simp only [Prod.mk.injEq] at h
        obtain ⟨h1, h2b, -, h4⟩ := h
        subst h1
        subst h2b
        have hrevert : replaceAt (replaceAt root (path ++ [featureValue])
            (.output (mostPopularTarget σ ((lookupBucket bmap featureValue).getD []))))
            (path ++ [featureValue]) subTree = root := by
          rw [replace_replace]
          exact replace_self (path ++ [featureValue]) root subTree hw
            (hpaths (featureValue, subTree) (by simp))
        rw [hrevert] at hrec
        have h4n : err3 = none := by
          cases err3 with
          | none => rfl
          | some e => simp at h4
        subst h4n
        exact ih root σ σ3 rootF pushes3 q hrec hw
          (fun kc hkc => hpaths kc (List.mem_cons_of_mem _ hkc)) hndrest hrate
    · -- postError <= prevError: keep the leaf replacement
      with_reducible rename_i hgt
      have hw2q : w2 ≤ q := by
        simp only [GoFloat.gt, GoFloat.isNan, Bool.and_eq_true, Bool.not_eq_true',
          beq_eq_false_iff_ne, ne_eq, decide_eq_true_eq, not_and, Bool.not_eq_true] at hgt
        have hcmp := hgt ⟨hn, hn⟩
        exact Nat.le_of_mul_le_mul_right (Nat.le_of_not_lt hcmp) (Nat.pos_of_ne_zero hn)
      have hwf1 : wfD (replaceAt root (path ++ [featureValue])
          (.output (mostPopularTarget σ ((lookupBucket bmap featureValue).getD [])))) = true :=
        wf_replace (.output (mostPopularTarget σ ((lookupBucket bmap featureValue).getD [])))
          (by rw [wfD]) _ root hw
      have hpaths1 : ∀ kc ∈ rest, getPath (replaceAt root (path ++ [featureValue])
          (.output (mostPopularTarget σ ((lookupBucket bmap featureValue).getD []))))
          (path ++ [kc.1]) = some kc.2 := by
        intro kc hkc
        have hne : kc.1 ≠ featureValue := by
          intro hc
          exact hkrest (hc ▸ List.mem_map_of_mem (fun p => p.1) hkc)
        rw [getPath_replace_other _ featureValue kc.1 hne]
        exact hpaths kc (List.mem_cons_of_mem _ hkc)
      obtain ⟨q', hq1, hq2, hq3⟩ := ih _ σ σ' rootR pushes w2 h hwf1 hpaths1 hndrest h2
      exact ⟨q', hq1, le_trans hq2 hw2q, hq3⟩

theorem pruneLoop_mono (validate : List InstId) (hn : validate.length ≠ 0) :
    ∀ (fuel : Nat) (stack : List (TreePath × List InstId)) (σ σ2 : Store)
      (root rootF : Decision) (q : Nat),
      pruneLoop validate fuel stack σ root = .ok (σ2, rootF) →
      wfD root = true →
      CalculateError root σ validate = (σ, ⟨q, validate.length⟩, none) →
      ∃ q', CalculateError rootF σ validate = (σ, ⟨q', validate.length⟩, none) ∧
        q' ≤ q ∧ wfD rootF = true := by
  intro fuel
  induction fuel with
  | zero => intro stack σ σ2 root rootF q h _ _; simp [pruneLoop] at h
  | succ fuel ih =>
    intro stack σ σ2 root rootF q h hw hrate
    cases stack with
    | nil =>
      simp [pruneLoop] at h
      obtain ⟨-, h2⟩ := h
      subst h2
      exact ⟨q, hrate, le_refl q, hw⟩
    | cons entry rest =>
      obtain ⟨path, curIds⟩ := entry
      rw [pruneLoop] at h
      cases hg : getPath root path with
      | none =>
        rw [hg] at h
        exact ih rest σ σ2 root rootF q h hw hrate
      | some cur =>
        rw [hg] at h
        cases cur with
        | output v => exact ih rest σ σ2 root rootF q h hw hrate
        | node featureName cs =>
          dsimp only at h
          cases hpc : pruneChildren validate path (bucketize σ curIds featureName) cs σ root with
          | mk σ1 r1 =>
            obtain ⟨root1, pushes, oe⟩ := r1
            rw [hpc] at h
            cases oe with
            | some e => simp at h
            | none =>
              dsimp only at h
              have hσ1 : σ1 = σ := by
                have := pruneChildren_store validate path
                  (bucketize σ curIds featureName) cs σ root
                rw [hpc] at this
                exact this
              subst hσ1
              obtain ⟨hnd, hwl⟩ := wfD_node_elim (wf_getPath path root _ hw hg)
              have hpaths : ∀ kc ∈ cs, getPath root (path ++ [kc.1]) = some kc.2 := by
                intro kc hkc
                exact getPath_append_child kc.1 kc.2 path root featureName cs hg
                  (lookupChild_of_mem_nodup kc.1 kc.2 cs (by
                    cases kc
                    exact hkc) hnd)
              obtain ⟨q1, hq1, hq2, hq3⟩ := pruneChildren_mono validate path
                (bucketize σ1 curIds featureName) hn cs root σ1 σ1 root1 pushes q hpc hw
                hpaths hnd hrate
              obtain ⟨q', hr1, hr2, hr3⟩ := ih _ σ1 σ2 root1 rootF q1 h hq3 hq1
              exact ⟨q', hr1, le_trans hr2 hq2, hr3⟩

/-- C6 counterexample (the claim as stated, for *every* dataset on which
evaluations succeed): with an empty validation set pruning succeeds and
every whole-tree evaluation "succeeds" (nil error), but the rates are the
float NaN (`0.0/0.0`), and `after <= before` is false — an IEEE comparison
with NaN on either side never holds. -/
theorem prune_not_monotone_on_empty_validation :
    ReducedErrorPrune 4 (.output false) [] [] = .ok ([], .output false) ∧
    CalculateError (.output false) [] [] = ([], ⟨0, 0⟩, none) ∧
    GoFloat.le ⟨0, 0⟩ ⟨0, 0⟩ = false :=
  ⟨by decide, by decide, by decide⟩

/-- C6 amended: whenever `ReducedErrorPrune` completes without error and
the initial whole-tree validation error is an actual number (not the NaN
of an empty validation set), the final whole-tree validation error is less
than or equal to the initial one: every kept subtree-to-leaf replacement
satisfies `after <= before` and every rejected replacement is reverted
exactly.  (`wfD root`, distinct child keys at every node, is automatic for
any tree built by Go maps; rates compare as exact fractions over the fixed
denominator `validate.length`.) -/
theorem reducedErrorPrune_never_increases_error (fuel : Nat) (root : Decision) (σ σ2 : Store)
    (validate : List InstId) (rootF : Decision) (q : Nat)
    (hp : ReducedErrorPrune fuel root σ validate = .ok (σ2, rootF))
    (hw : wfD root = true)
    (hrate : CalculateError root σ validate = (σ, ⟨q, validate.length⟩, none))
    (hn : validate.length ≠ 0) :
    ∃ q', CalculateError rootF σ validate = (σ, ⟨q', validate.length⟩, none) ∧
      GoFloat.le ⟨q', validate.length⟩ ⟨q, validate.length⟩ = true := by
  obtain ⟨q', h1, h2, -⟩ := pruneLoop_mono validate hn fuel [([], validate)] σ σ2 root rootF q
    hp hw hrate
  refine ⟨q', h1, ?_⟩
  simp only [GoFloat.le, GoFloat.isNan]
  simp [hn]
  exact Nat.mul_le_mul_right _ h2

/-- The one-instance store of the C6 witness run. -/
def pruneStore : Store := [⟨[("a", 0)], false⟩]

/-- Witness for the amended C6: a concrete one-node pruning run (the
replacement is kept; validation error stays 0/1). -/
theorem reducedErrorPrune_never_increases_error_witness :
    (ReducedErrorPrune 4 (.node "a" [(0, .output false)]) pruneStore [0]
        = .ok (pruneStore, .node "a" [(0, .output false)]) ∧
      wfD (.node "a" [(0, .output false)]) = true ∧
      CalculateError (.node "a" [(0, .output false)]) pruneStore [0]
        = (pruneStore, ⟨0, 1⟩, none) ∧
      ([0] : List InstId).length ≠ 0) ∧
    (∃ q', CalculateError (.node "a" [(0, .output false)]) pruneStore [0]
        = (pruneStore, ⟨q', 1⟩, none) ∧
      GoFloat.le ⟨q', 1⟩ ⟨0, 1⟩ = true) :=
  ⟨⟨by decide, by decide, by decide, by decide⟩, by
    have h := reducedErrorPrune_never_increases_error 4 (.node "a" [(0, .output false)])
      pruneStore pruneStore [0] (.node "a" [(0, .output false)]) 0
      (by decide) (by decide) (by decide) (by decide)
    exact h⟩

/-
The information-gain selector: running-maximum behavior and the empty-name
sentinel.
-/

theorem bfLoop_spec (σ : Store) (ids : List InstId) :
    ∀ (l : List String) (g : ℝ) (best : String),
      (∀ fn ∈ l, fn ≠ "") →
      ((best = "" ∧ g = 0) ∨
        (best ≠ "" ∧ 0 < g ∧ infoGainOfFeature σ ids best = g)) →
      (bfLoop σ ids l g best = "" →
        best = "" ∧ g = 0 ∧ ∀ fn ∈ l, infoGainOfFeature σ ids fn ≤ 0) ∧
      (bfLoop σ ids l g best ≠ "" →
        (bfLoop σ ids l g best ∈ l ∨ bfLoop σ ids l g best = best) ∧
        0 < infoGainOfFeature σ ids (bfLoop σ ids l g best) ∧
        g ≤ infoGainOfFeature σ ids (bfLoop σ ids l g best) ∧
        ∀ fn ∈ l, infoGainOfFeature σ ids fn ≤ infoGainOfFeature σ ids (bfLoop σ ids l g best)) := by
  intro l
  induction l with
  | nil =>
    intro g best _ hinv
    constructor
    · intro hr
      rw [bfLoop] at hr
      rcases hinv with ⟨h1, h2⟩ | ⟨h1, -, -⟩
      · exact ⟨h1, h2, by simp⟩
      · exact absurd hr h1
    · intro hr
      rw [bfLoop] at hr ⊢
      rcases hinv with ⟨h1, -⟩ | ⟨-, h2, h3⟩
      · exact absurd h1 hr
      · exact ⟨Or.inr rfl, h3 ▸ h2, le_of_eq h3.symm, by simp⟩
  | cons fn rest ih =>
    intro g best hne hinv
    have hfn : fn ≠ "" := hne fn (by simp)
    have hner : ∀ fn2 ∈ rest, fn2 ≠ "" := fun fn2 h2 => hne fn2 (by simp [h2])
    have hg0 : 0 ≤ g := by
      rcases hinv with ⟨-, h2⟩ | ⟨-, h2, -⟩
      · rw [h2]
      · exact le_of_lt h2
    rw [bfLoop]
    by_cases hgt : infoGainOfFeature σ ids fn > g
    · rw [if_pos hgt]
      have hinv2 : (fn = "" ∧ infoGainOfFeature σ ids fn = 0) ∨
          (fn ≠ "" ∧ 0 < infoGainOfFeature σ ids fn ∧
            infoGainOfFeature σ ids fn = infoGainOfFeature σ ids fn) :=
        Or.inr ⟨hfn, lt_of_le_of_lt hg0 hgt, rfl⟩
      have hih := ih (infoGainOfFeature σ ids fn) fn hner hinv2
      constructor
      · intro hr
        obtain ⟨h1, -, -⟩ := hih.1 hr
        exact absurd h1 hfn
      · intro hr
        obtain ⟨h1, h2, h3, h4⟩ := hih.2 hr
        refine ⟨?_, h2, le_trans (le_of_lt hgt) h3, ?_⟩
        · rcases h1 with h1a | h1b
          · exact Or.inl (List.mem_cons_of_mem _ h1a)
          · exact Or.inl (by rw [h1b]; exact List.mem_cons_self fn rest)
        · intro fn2 hfn2
          rcases List.mem_cons.mp hfn2 with h5 | h5
          · subst h5; exact h3
          · exact h4 fn2 h5
    · rw [if_neg hgt]
      push_neg at hgt
      have hih := ih g best hner hinv
      constructor
      · intro hr
        obtain ⟨h1, h2, h3⟩ := hih.1 hr
        refine ⟨h1, h2, ?_⟩
        intro fn2 hfn2
        rcases List.mem_cons.mp hfn2 with h5 | h5
        · subst h5; rw [← h2]; exact hgt
        · exact h3 fn2 h5
      · intro hr
        obtain ⟨h1, h2, h3, h4⟩ := hih.2 hr
        refine ⟨?_, h2, h3, ?_⟩
        · rcases h1 with h1a | h1b
          · exact Or.inl (List.mem_cons_of_mem _ h1a)
          · exact Or.inr h1b
        · intro fn2 hfn2
          rcases List.mem_cons.mp hfn2 with h5 | h5
          · subst h5; exact le_trans hgt h3
          · exact h4 fn2 h5

/-- The dataset of the C7 counterexample: its single feature is literally
named `""`, the same string as the NONE sentinel, and it separates the two
target values perfectly. -/
def sentinelStore : Store := [⟨[("", 0)], false⟩, ⟨[("", 1)], true⟩]

theorem entropy_pair : entropy [false, true] = 1 := by
  have h1 : ([false, true] : List Target).count false = 1 := by decide
  have h2 : ([false, true] : List Target).count true = 1 := by decide
  rw [entropy]
  simp only [h1, h2, List.length_cons, List.length_nil]
  norm_num [entropyTerm]
  rw [one_div, Real.logb_inv, Real.logb_self_eq_one]
  · norm_num
  · norm_num

theorem entropy_single (b : Target) : entropy [b] = 0 := by
  rw [entropy]
  cases b
  · simp only [List.length_cons, List.length_nil]
    have hcf : ([false] : List Target).count false = 1 := by decide
    have hct : ([false] : List Target).count true = 0 := by decide
    simp only [hcf, hct]
    norm_num [entropyTerm]
  · simp only [List.length_cons, List.length_nil]
    have hcf : ([true] : List Target).count false = 0 := by decide
    have hct : ([true] : List Target).count true = 1 := by decide
    simp only [hcf, hct]
    norm_num [entropyTerm]

theorem sentinel_gain : infoGainOfFeature sentinelStore [0, 1] "" = 1 := by
  have hb : bucketize sentinelStore [0, 1] "" = [(0, [0]), (1, [1])] := by decide
  have ht : targetsOf sentinelStore [0, 1] = [false, true] := by decide
  have ht0 : targetsOf sentinelStore [0] = [false] := by decide
  have ht1 : targetsOf sentinelStore [1] = [true] := by decide
  rw [infoGainOfFeature, hb, ht]
  simp only [List.map_cons, List.map_nil, ht0, ht1]
  rw [entropy_pair, entropy_single, entropy_single]
  norm_num

/-- C7 counterexample: on a dataset whose only feature is literally named
`""`, the selector returns `""` — the NONE sentinel — even though that
candidate's information gain is 1 > 0, so "returns NONE iff no candidate
has gain strictly greater than 0" fails as stated (the empty-name sentinel
conflates "no useful feature" with a feature named `""`). -/
theorem bestFeature_sentinel_conflation :
    featureKeys (fetch sentinelStore (([0, 1] : List InstId).headD 0)).featureValues = [""] ∧
    BestFeatureInformationGain sentinelStore [0, 1] = "" ∧
    0 < infoGainOfFeature sentinelStore [0, 1] "" := by
  refine ⟨by decide, ?_, by rw [sentinel_gain]; norm_num⟩
  rw [BestFeatureInformationGain]
  have hfk : featureKeys (fetch sentinelStore (([0, 1] : List InstId).headD 0)).featureValues
      = [""] := by decide
  rw [hfk, bfLoop, if_pos (by rw [sentinel_gain]; norm_num), bfLoop]

/-- C7 amended: for every non-empty dataset whose candidate features (the
keys of the first instance's feature map) do not include the empty name,
`BestFeatureInformationGain` returns the NONE sentinel `""` iff no
candidate's information gain is strictly positive, and otherwise returns a
candidate of strictly positive, maximal gain (running maximum initialized
to 0.0, strict improvement only). -/
theorem bestFeatureInformationGain_spec (σ : Store) (ids : List InstId)
    (hne : ids ≠ [])
    (hcand : "" ∉ featureKeys (fetch σ (ids.headD 0)).featureValues) :
    (BestFeatureInformationGain σ ids = "" ↔
      ∀ fn ∈ featureKeys (fetch σ (ids.headD 0)).featureValues,
        infoGainOfFeature σ ids fn ≤ 0) ∧
    (BestFeatureInformationGain σ ids ≠ "" →
      BestFeatureInformationGain σ ids ∈ featureKeys (fetch σ (ids.headD 0)).featureValues ∧
      0 < infoGainOfFeature σ ids (BestFeatureInformationGain σ ids) ∧
      ∀ fn ∈ featureKeys (fetch σ (ids.headD 0)).featureValues,
        infoGainOfFeature σ ids fn ≤ infoGainOfFeature σ ids (BestFeatureInformationGain σ ids)) := by
  have hspec := bfLoop_spec σ ids (featureKeys (fetch σ (ids.headD 0)).featureValues) 0 ""
    (fun fn h hc => hcand (hc ▸ h)) (Or.inl ⟨rfl, rfl⟩)
  rw [BestFeatureInformationGain]
  constructor
  · constructor
    · intro hr
      exact (hspec.1 hr).2.2
    · intro hall
      by_contra hr
      obtain ⟨h1, h2, -, -⟩ := hspec.2 hr
      rcases h1 with h1a | h1b
      · exact absurd h2 (not_lt.mpr (hall _ h1a))
      · exact hr h1b
  · intro hr
    obtain ⟨h1, h2, h3, h4⟩ := hspec.2 hr
    rcases h1 with h1a | h1b
    · exact ⟨h1a, h2, h4⟩
    · exact absurd h1b hr

/-- Witness for the amended C7 at the candy dataset (candidates "salty" and
"sweet", neither the empty name). -/
theorem bestFeatureInformationGain_spec_witness :
    (([0, 1, 2, 3] : List InstId) ≠ [] ∧
      "" ∉ featureKeys (fetch candyStore (([0, 1, 2, 3] : List InstId).headD 0)).featureValues) ∧
    (BestFeatureInformationGain candyStore [0, 1, 2, 3] = "" ↔
      ∀ fn ∈ featureKeys (fetch candyStore (([0, 1, 2, 3] : List InstId).headD 0)).featureValues,
        infoGainOfFeature candyStore [0, 1, 2, 3] fn ≤ 0) :=
  ⟨⟨by decide, by decide⟩,
    (bestFeatureInformationGain_spec candyStore [0, 1, 2, 3] (by decide) (by decide)).1⟩
